import Mathlib

/-!
Verification development for a knowledge-graph explorer
(`knowledge_graph_explorer.py`): a parser that recovers entities and
relationships from a graph-description script (`parse_cypher_file`), a
builder that materializes a directed property graph over the `networkx`
`DiGraph` store (`build_networkx_graph`), and a subgraph selector with
type / seed / relation filters and hop-radius neighborhood expansion
(the filtering part of `create_pyvis_graph`).

The script's regular-expression grammar is modelled by the `Stmt`
alphabet: each constructor carries the capture groups of one recognized
statement shape, with numeric groups kept as the raw digit strings that
the pattern `\d+` captures and converted with `strToNat?` exactly
where the Python code calls `int(...)`.  `Stmt.other` stands for any
piece of text matched by none of the patterns.  The `DiGraph` store is
modelled by association lists keyed by node id and by the ordered pair
(source, target); `add_edge` on an existing pair merges the new
attributes into the old attribute dict, which is mirrored by the two
attribute-merging updaters `upsertRel` and `upsertSeq`.
-/

namespace KG

/-- First-match lookup in an association list (Python dict access). -/
def alookup {κ α : Type} [DecidableEq κ] (k : κ) : List (κ × α) → Option α
  | [] => none
  | p :: ps => if p.1 = k then some p.2 else alookup k ps

/-- Python dict assignment: replace the value at an existing key in place,
otherwise append the new binding at the end (dicts preserve insertion
order and keep the original position on re-assignment). -/
def upsert {κ α : Type} [DecidableEq κ] (k : κ) (v : α) : List (κ × α) → List (κ × α)
  | [] => [(k, v)]
  | p :: ps => if p.1 = k then (k, v) :: ps else p :: upsert k v ps

/-- Apply `f` to the value stored at key `k`; no-op when `k` is absent. -/
def updateAt {κ α : Type} [DecidableEq κ] (k : κ) (f : α → α) : List (κ × α) → List (κ × α)
  | [] => []
  | p :: ps => if p.1 = k then (k, f p.2) :: ps else p :: updateAt k f ps

/-- `d.setdefault(k, []).append(x)`: append `x` to the list stored at `k`,
creating the binding when absent. -/
def appendAt {κ α : Type} [DecidableEq κ] (k : κ) (x : α) : List (κ × List α) → List (κ × List α)
  | [] => [(k, [x])]
  | p :: ps => if p.1 = k then (k, p.2 ++ [x]) :: ps else p :: appendAt k x ps

/-- A KnowledgeNode entity record, as stored in `knowledge_nodes`. -/
structure KnowledgeNode where
  id : String
  title : String
  description : String
  difficulty : String
  estimatedMinutes : Nat
  source_lesson : String
  source_title : String
  deriving DecidableEq

/-- A Concept entity record.  `nodes` is the membership list initialized
to `[]` at creation; `sequence` is the derived ordered list, a key that
is only ever written by the sorting pass (hence `Option`). -/
structure Concept where
  id : String
  name : String
  description : String
  estimatedMinutes : Nat
  nodes : List String
  sequence : Option (List String)
  deriving DecidableEq

/-- A LearningPath entity record; `conceptSequence` is the derived
ordered list of concept ids, written only by the sorting pass. -/
structure LearningPath where
  id : String
  name : String
  description : String
  targetAudience : String
  keyCompetencies : List String
  estimatedMinutes : Nat
  concepts : List String
  conceptSequence : Option (List String)
  deriving DecidableEq

/-- An entry of the raw `relationships` list. -/
structure Relationship where
  source : String
  target : String
  type : String
  strength : Nat
  justification : String
  deriving DecidableEq

/-- The result of `parse_cypher_file`. -/
structure ParsedModel where
  knowledge_nodes : List (String × KnowledgeNode)
  concepts : List (String × Concept)
  learning_paths : List (String × LearningPath)
  relationships : List Relationship
  deriving DecidableEq

/-- One recognized statement of the script, i.e. one regex match of one of
the statement shapes, carrying its capture groups (numeric groups as the
captured digit strings).  `other` is any unrecognized statement. -/
inductive Stmt where
  | createNode (id title descr diff mins source_lesson source_title : String)
  | createConcept (id name descr mins : String)
  | createPath (id name descr targetAudience keyCompetencies mins : String)
  | relStmt (source target relType strength justification : String)
  | containsStmt (concept_id node_id seq : String)
  | includesStmt (path_id concept_id seq : String)
  | prereqStmt (source target : String)
  | other (text : String)
  deriving DecidableEq

/-- `key_competencies.split(";") if key_competencies else []`. -/
def splitCompetencies (s : String) : List String :=
  if s = "" then [] else s.splitOn ";"

/-- Decimal value of a digit string, accumulator style; `none` at the
first non-digit character. -/
def digitsCore : List Char → Nat → Option Nat
  | [], acc => some acc
  | c :: cs, acc =>
      if c.isDigit then digitsCore cs (acc * 10 + (c.toNat - 48)) else none

/-- `int(s)` on a regex capture: the decimal value of a nonempty digit
string, `none` when the string is empty or holds a non-digit (where the
Python `int(...)` call would raise). -/
def strToNat? (s : String) : Option Nat :=
  if s.data = [] then none else digitsCore s.data 0

/-- Is this string a nonempty run of decimal digits — exactly what the
pattern `\d+` guarantees about a capture? -/
def isDigitStr (s : String) : Bool :=
  !(s.data.isEmpty) && s.data.all Char.isDigit

/-- Stable insertion by declared sequence number: the new element goes
after every element with a strictly smaller key and before every element
with an equal or larger key, which is exactly where Python's stable
`sorted(..., key=lambda x: x[1])` puts an element that occurs earlier in
the input than its equals. -/
def seqInsert (x : String × Nat) : List (String × Nat) → List (String × Nat)
  | [] => [x]
  | y :: ys => if y.2 < x.2 then y :: seqInsert x ys else x :: y :: ys

/-- Stable sort of (member id, declared sequence) pairs by declared
sequence, modelling `sorted(nodes, key=lambda x: x[1])`. -/
def sortBySeq : List (String × Nat) → List (String × Nat)
  | [] => []
  | x :: xs => seqInsert x (sortBySeq xs)

/-- Pass over the full script collecting KnowledgeNode creations
(`knowledge_nodes[node_id] = {...}` with `int(minutes)`). -/
def nodeStep (acc : List (String × KnowledgeNode)) : Stmt → Option (List (String × KnowledgeNode))
  | .createNode id title descr diff mins sl stt =>
      (strToNat? mins).map fun mn => upsert id ⟨id, title, descr, diff, mn, sl, stt⟩ acc
  | _ => some acc

/-- Pass collecting Concept creations; `nodes` starts empty and the
`sequence` key is not written at creation. -/
def conceptStep (acc : List (String × Concept)) : Stmt → Option (List (String × Concept))
  | .createConcept id name descr mins =>
      (strToNat? mins).map fun mn => upsert id ⟨id, name, descr, mn, [], none⟩ acc
  | _ => some acc

/-- Pass collecting LearningPath creations. -/
def pathStep (acc : List (String × LearningPath)) : Stmt → Option (List (String × LearningPath))
  | .createPath id name descr ta kc mins =>
      (strToNat? mins).map fun mn => upsert id ⟨id, name, descr, ta, splitCompetencies kc, mn, [], none⟩ acc
  | _ => some acc

/-- Pass collecting node-to-node relationship statements, appended to the
raw relationship list in text order. -/
def relStep (acc : List Relationship) : Stmt → Option (List Relationship)
  | .relStmt src tgt ty st j =>
      (strToNat? st).map fun stn => acc ++ [⟨src, tgt, ty, stn, j⟩]
  | _ => some acc

/-- Pass over CONTAINS statements: accumulate `(node_id, sequence)` into
the auxiliary `concept_nodes` map and, when the concept exists, add the
node id to the concept's membership list if not already there. -/
def containsStep (acc : List (String × List (String × Nat)) × List (String × Concept)) :
    Stmt → Option (List (String × List (String × Nat)) × List (String × Concept))
  | .containsStmt cid nid sq =>
      (strToNat? sq).map fun k =>
        (appendAt cid (nid, k) acc.1,
         if (alookup cid acc.2).isSome then
           updateAt cid
             (fun c => if nid ∈ c.nodes then c else { c with nodes := c.nodes ++ [nid] }) acc.2
         else acc.2)
  | _ => some acc

/-- Pass over INCLUDES statements, mirroring `containsStep` for learning
paths. -/
def includesStep (acc : List (String × List (String × Nat)) × List (String × LearningPath)) :
    Stmt → Option (List (String × List (String × Nat)) × List (String × LearningPath))
  | .includesStmt pid cid sq =>
      (strToNat? sq).map fun k =>
        (appendAt pid (cid, k) acc.1,
         if (alookup pid acc.2).isSome then
           updateAt pid
             (fun p => if cid ∈ p.concepts then p else { p with concepts := p.concepts ++ [cid] }) acc.2
         else acc.2)
  | _ => some acc

/-- Pass appending PREREQUISITE_FOR relationships with fixed strength 4
and fixed justification text. -/
def prereqStep (acc : List Relationship) : Stmt → List Relationship
  | .prereqStmt a b => acc ++ [⟨a, b, "PREREQUISITE_FOR", 4, "Prerequisite concept"⟩]
  | _ => acc

/-- `for concept_id, nodes in concept_nodes.items(): ... sorted(...)`:
write the sorted member-id list into each concept's `sequence` key;
concepts that were never created are skipped (`if concept_id in concepts`). -/
def applySeqs (cn : List (String × List (String × Nat))) (cs : List (String × Concept)) :
    List (String × Concept) :=
  cn.foldl
    (fun cs p =>
      updateAt p.1 (fun c => { c with sequence := some ((sortBySeq p.2).map Prod.fst) }) cs) cs

/-- The same sorting pass for learning paths, writing `conceptSequence`. -/
def applyPathSeqs (pn : List (String × List (String × Nat))) (lps : List (String × LearningPath)) :
    List (String × LearningPath) :=
  pn.foldl
    (fun lps p =>
      updateAt p.1
        (fun lp => { lp with conceptSequence := some ((sortBySeq p.2).map Prod.fst) }) lps) lps

/-- `parse_cypher_file`: independent full-text passes, one per statement
shape, in the order of the Python source.  The result is `none` exactly
when some `int(...)` conversion of a captured numeric group would raise,
which the theorems below show cannot happen for groups captured by
`\d+`. -/
def parse (script : List Stmt) : Option ParsedModel :=
  (script.foldlM nodeStep []).bind fun kns =>
  (script.foldlM conceptStep []).bind fun cs0 =>
  (script.foldlM pathStep []).bind fun lps0 =>
  (script.foldlM relStep []).bind fun rels0 =>
  (script.foldlM containsStep ([], cs0)).bind fun cc =>
  (script.foldlM includesStep ([], lps0)).bind fun pp =>
  some
    { knowledge_nodes := kns
      concepts := applySeqs cc.1 cc.2
      learning_paths := applyPathSeqs pp.1 pp.2
      relationships := script.foldl prereqStep rels0 }

/-- The entity record stored among a graph node's attributes
(`attrs = dict(node_data)`). -/
inductive Entity where
  | unit (k : KnowledgeNode)
  | concept (c : Concept)
  | path (p : LearningPath)
  deriving DecidableEq

/-- Node attributes: the `type` tag and display `label` added by the
builder, plus the copied entity record. -/
structure NodeData where
  type : String
  label : String
  entity : Entity
  deriving DecidableEq

/-- Attributes of a directed edge.  `add_edge` merges keyword arguments
into the existing attribute dict, so each field is optional except
`relation`, which every `add_edge` call in the builder supplies. -/
structure EdgeAttrs where
  relation : String
  strength : Option Nat
  justification : Option String
  seq : Option Nat
  deriving DecidableEq

/-- A `networkx.DiGraph`: nodes keyed by id, edges keyed by the ordered
(source, target) pair — a DiGraph stores at most one edge per ordered
pair. -/
structure Graph where
  nodes : List (String × NodeData)
  edges : List ((String × String) × EdgeAttrs)
  deriving DecidableEq

/-- Node ids of a graph. -/
def Graph.nodeIds (G : Graph) : List String := G.nodes.map Prod.fst

/-- `node_id in G` (node membership test). -/
def Graph.hasNode (G : Graph) (id : String) : Bool :=
  G.nodes.any fun p => p.1 == id

/-- The store's `add_edge`/attribute-merge discipline: replace the value
at `k` by `f` of the old value, or create the binding from `f none`. -/
def upsertWith {κ α : Type} [DecidableEq κ] (k : κ) (f : Option α → α) :
    List (κ × α) → List (κ × α)
  | [] => [(k, f none)]
  | p :: ps => if p.1 = k then (k, f (some p.2)) :: ps else p :: upsertWith k f ps

/-- `G.add_edge(u, v, relation=..., strength=..., justification=...)`:
merge these attributes into an existing edge's dict, or create the
edge (the `sequence` attribute, if present, is kept). -/
def upsertRel (key : String × String) (ty : String) (st : Nat) (j : String) :
    List ((String × String) × EdgeAttrs) → List ((String × String) × EdgeAttrs) :=
  upsertWith key fun
    | some a => { a with relation := ty, strength := some st, justification := some j }
    | none => ⟨ty, some st, some j, none⟩

/-- `G.add_edge(u, v, relation=..., sequence=...)` for structural
CONTAINS / INCLUDES edges (`strength`/`justification`, if present, are
kept). -/
def upsertSeq (key : String × String) (ty : String) (n : Nat) :
    List ((String × String) × EdgeAttrs) → List ((String × String) × EdgeAttrs) :=
  upsertWith key fun
    | some a => { a with relation := ty, seq := some n }
    | none => ⟨ty, none, none, some n⟩

/-- Relationship pass of the builder: an edge is added only when both
endpoint ids are nodes of the graph; otherwise the entry is skipped
silently. -/
def relEdges (hasN : String → Bool) (rels : List Relationship)
    (es : List ((String × String) × EdgeAttrs)) : List ((String × String) × EdgeAttrs) :=
  rels.foldl
    (fun es r =>
      if hasN r.source && hasN r.target then
        upsertRel (r.source, r.target) r.type r.strength r.justification es
      else es) es

/-- `for i, node_id in enumerate(seq): if node_id in G: add_edge(src,
node_id, relation=ty, sequence=i+1)`, with `i0` the index of the first
element. -/
def seqEdges (hasN : String → Bool) (ty src : String) :
    Nat → List String → List ((String × String) × EdgeAttrs) → List ((String × String) × EdgeAttrs)
  | _, [], es => es
  | i, x :: xs, es =>
      seqEdges hasN ty src (i + 1) xs (if hasN x then upsertSeq (src, x) ty (i + 1) es else es)

/-- CONTAINS pass of the builder: one edge per member of each concept's
derived `sequence`, skipping members that are not nodes. -/
def containsEdges (hasN : String → Bool) (cs : List (String × Concept))
    (es : List ((String × String) × EdgeAttrs)) : List ((String × String) × EdgeAttrs) :=
  cs.foldl
    (fun es p =>
      match p.2.sequence with
      | some s => seqEdges hasN "CONTAINS" p.1 0 s es
      | none => es) es

/-- INCLUDES pass of the builder, over each path's `conceptSequence`. -/
def includesEdges (hasN : String → Bool) (lps : List (String × LearningPath))
    (es : List ((String × String) × EdgeAttrs)) : List ((String × String) × EdgeAttrs) :=
  lps.foldl
    (fun es p =>
      match p.2.conceptSequence with
      | some s => seqEdges hasN "INCLUDES" p.1 0 s es
      | none => es) es

/-- Node pass of `build_networkx_graph`: one node per entity with the
entity record, a `type` tag and a display `label`. -/
def buildNodes (m : ParsedModel) : List (String × NodeData) :=
  let n1 := m.knowledge_nodes.foldl
    (fun acc p => upsert p.1 ⟨"KnowledgeNode", p.2.title, .unit p.2⟩ acc) []
  let n2 := m.concepts.foldl
    (fun acc p => upsert p.1 ⟨"Concept", p.2.name, .concept p.2⟩ acc) n1
  m.learning_paths.foldl
    (fun acc p => upsert p.1 ⟨"LearningPath", p.2.name, .path p.2⟩ acc) n2

/-- `build_networkx_graph`: add all entity nodes, then relationship
edges, then CONTAINS edges, then INCLUDES edges. -/
def build (m : ParsedModel) : Graph :=
  let nodes := buildNodes m
  let hasN := fun id => nodes.any fun p => p.1 == id
  { nodes := nodes
    edges :=
      includesEdges hasN m.learning_paths
        (containsEdges hasN m.concepts (relEdges hasN m.relationships [])) }

/-- `G.successors(u)` as a finite set. -/
def succs (G : Graph) (u : String) : Finset String :=
  (G.edges.filterMap fun e => if e.1.1 = u then some e.1.2 else none).toFinset

/-- `G.predecessors(u)` as a finite set. -/
def preds (G : Graph) (u : String) : Finset String :=
  (G.edges.filterMap fun e => if e.1.2 = u then some e.1.1 else none).toFinset

/-- The successor half of the neighborhood expansion: `neighbors` after
`i` rounds of `for n in list(neighbors) + [node_id]: if n in G:
neighbors.update(G.successors(n))`, starting from the empty set. -/
def fwdIter (G : Graph) (s : String) : Nat → Finset String
  | 0 => ∅
  | i + 1 =>
      let A := fwdIter G s i
      A ∪ (insert s A).biUnion fun n => if G.hasNode n then succs G n else ∅

/-- The predecessor half: `i` further rounds updating with
`G.predecessors(n)` over the accumulated set, starting from `init` (the
result of the successor half). -/
def bwdIter (G : Graph) (s : String) (init : Finset String) : Nat → Finset String
  | 0 => init
  | i + 1 =>
      let B := bwdIter G s init i
      B ∪ (insert s B).biUnion fun n => if G.hasNode n then preds G n else ∅

/-- The `neighbors` set computed for one seed `node_id` when
`neighborhood_degree = k`: `k` successor rounds followed by `k`
predecessor rounds over the accumulated set. -/
def seedNeighbors (G : Graph) (k : Nat) (s : String) : Finset String :=
  bwdIter G s (fwdIter G s k) k

/-- Nodes whose `type` attribute lies in the type filter. -/
def typedNodes (G : Graph) (ft : List String) : Finset String :=
  (G.nodes.filterMap fun p => if p.2.type ∈ ft then some p.1 else none).toFinset

/-- `nodes_to_include` of `create_pyvis_graph`: seeds present in the
graph with their expanded neighborhoods (when a seed list is given and
the hop radius is positive), union all nodes matching the type filter;
all nodes when neither node filter is given.  Empty filter lists play
the role of Python's falsy `None`/`[]` defaults. -/
def selectNodes (G : Graph) (ft fids : List String) (k : Nat) : Finset String :=
  if ft = [] ∧ fids = [] then (G.nodes.map Prod.fst).toFinset
  else
    (if fids ≠ [] then
       let seeds := (fids.filter fun i => G.hasNode i).toFinset
       if 0 < k then seeds ∪ seeds.biUnion (seedNeighbors G k) else seeds
     else ∅) ∪
    (if ft ≠ [] then typedNodes G ft else ∅)

/-- The filtering stage of `create_pyvis_graph`: when no filter is given
the input graph itself is used; otherwise the subgraph with the selected
nodes and every edge whose endpoints are both selected and whose
relation passes the relation filter. -/
def select (G : Graph) (ft fids fr : List String) (k : Nat) : Graph :=
  if ft = [] ∧ fids = [] ∧ fr = [] then G
  else
    let nti := selectNodes G ft fids k
    { nodes := G.nodes.filter fun p => decide (p.1 ∈ nti)
      edges :=
        G.edges.filter fun e =>
          decide (e.1.1 ∈ nti) && decide (e.1.2 ∈ nti) &&
            (decide (fr = []) || decide (e.2.relation ∈ fr)) }

/-! ### Specification-side notions used to state the claims -/

/-- There is a directed edge from `u` to `v`. -/
def edgeP (G : Graph) (u v : String) : Prop :=
  ∃ a, ((u, v), a) ∈ G.edges

/-- A directed path of exactly `n` edges from `u` to `v`. -/
def pathN (G : Graph) : Nat → String → String → Prop
  | 0, u, v => u = v
  | n + 1, u, v => ∃ w, edgeP G u w ∧ pathN G n w v

/-- The pure forward ball: nodes reachable from `s` by at most `n`
directed hops (no node-membership side conditions). -/
def fwdBall (G : Graph) (s : String) : Nat → Finset String
  | 0 => {s}
  | n + 1 => fwdBall G s n ∪ (fwdBall G s n).biUnion (succs G)

/-- The pure backward ball around a set `X`: grow `X` by predecessor
steps, `n` times. -/
def bwdBall (G : Graph) (X : Finset String) : Nat → Finset String
  | 0 => X
  | n + 1 => bwdBall G X n ∪ (bwdBall G X n).biUnion (preds G)

/-- Undirected neighbors: targets of outgoing edges and sources of
incoming edges. -/
def uneighbors (G : Graph) (u : String) : Finset String :=
  (G.edges.filterMap fun e =>
    if e.1.1 = u then some e.1.2 else if e.1.2 = u then some e.1.1 else none).toFinset

/-- Modelled from the spec's words for claim C1: the set of nodes
reachable from some node of `S` within `n` hops when each hop may follow
an edge in either direction. -/
def uball (G : Graph) (S : Finset String) : Nat → Finset String
  | 0 => S
  | n + 1 => uball G S n ∪ (uball G S n).biUnion (uneighbors G)

/-- Every edge's endpoints are nodes of the graph — an invariant that
`networkx` maintains by construction (`add_edge` auto-registers its
endpoints) and that `build` establishes. -/
def EdgesWF (G : Graph) : Prop :=
  ∀ e ∈ G.edges, G.hasNode e.1.1 = true ∧ G.hasNode e.1.2 = true

/-- The ordered `(node_id, int(sequence))` list of the recognized
CONTAINS statements of a given concept, in script order; `none` when an
`int(...)` conversion of one of these statements would fail. -/
def containsPairs (cid : String) : List Stmt → Option (List (String × Nat))
  | [] => some []
  | .containsStmt c n sq :: rest =>
      if c = cid then
        (strToNat? sq).bind fun k => (containsPairs cid rest).map fun l => (n, k) :: l
      else containsPairs cid rest
  | _ :: rest => containsPairs cid rest

/-- Does this statement link a CONTAINS member to the given concept? -/
def isContainsFor (cid : String) : Stmt → Bool
  | .containsStmt c _ _ => c == cid
  | _ => false

/-- What the regular expressions guarantee about every match: each
numeric capture group (matched by `\d+`) is a nonempty digit string, so
the `int(...)` conversions the parser performs cannot fail. -/
def StmtWF : Stmt → Prop
  | .createNode _ _ _ _ mins _ _ => isDigitStr mins = true
  | .createConcept _ _ _ mins => isDigitStr mins = true
  | .createPath _ _ _ _ _ mins => isDigitStr mins = true
  | .relStmt _ _ _ st _ => isDigitStr st = true
  | .containsStmt _ _ sq => isDigitStr sq = true
  | .includesStmt _ _ sq => isDigitStr sq = true
  | _ => True

/-! ### Association-list lemmas -/

section AList

variable {κ α : Type} [DecidableEq κ]

@[simp] theorem alookup_nil (k : κ) : alookup k ([] : List (κ × α)) = none := rfl

@[simp] theorem alookup_cons (k : κ) (p : κ × α) (ps : List (κ × α)) :
    alookup k (p :: ps) = if p.1 = k then some p.2 else alookup k ps := rfl

theorem alookup_mem {k : κ} {v : α} :
    ∀ {l : List (κ × α)}, alookup k l = some v → (k, v) ∈ l := by
  intro l
  induction l with
  | nil => simp
  | cons p ps ih =>
      intro h
      rcases em (p.1 = k) with hp | hp
      · simp only [alookup_cons, hp, if_pos, Option.some.injEq] at h
        subst h
        exact hp ▸ List.mem_cons_self p ps
      · simp only [alookup_cons, hp, if_neg, if_false] at h
        exact List.mem_cons_of_mem p (ih h)

theorem alookup_eq_none {k : κ} :
    ∀ {l : List (κ × α)}, alookup k l = none ↔ k ∉ l.map Prod.fst := by
  intro l
  induction l with
  | nil => simp
  | cons p ps ih =>
      rcases em (p.1 = k) with hp | hp
      · simp [hp]
      · simp [hp, ih, Ne.symm hp]

theorem alookup_isSome {k : κ} {l : List (κ × α)} :
    (alookup k l).isSome = true ↔ k ∈ l.map Prod.fst := by
  rcases h : alookup k l with _ | v
  · simpa [h] using alookup_eq_none.mp h
  · simp only [h, Option.isSome_some, true_iff]
    exact List.mem_map.mpr ⟨(k, v), alookup_mem h, rfl⟩

theorem alookup_upsert (k k' : κ) (v : α) (l : List (κ × α)) :
    alookup k' (upsert k v l) = if k' = k then some v else alookup k' l := by
  induction l with
  | nil => by_cases h : k' = k <;> simp [upsert, h, Ne.symm]
  | cons p ps ih =>
      by_cases hp : p.1 = k
      · by_cases h : k' = k <;> simp [upsert, hp, h, Ne.symm]
      · by_cases h : k' = k
        · subst h
          simp [upsert, hp, ih, Ne.symm hp]
        · simp [upsert, hp, ih, h]

theorem upsert_keys (k : κ) (v : α) (l : List (κ × α)) :
    (upsert k v l).map Prod.fst =
      if k ∈ l.map Prod.fst then l.map Prod.fst else l.map Prod.fst ++ [k] := by
  induction l with
  | nil => simp [upsert]
  | cons p ps ih =>
      by_cases hp : p.1 = k
      · simp [upsert, hp]
      · by_cases hm : k ∈ ps.map Prod.fst <;> simp [upsert, hp, ih, hm, Ne.symm hp]

theorem upsert_keys_nodup (k : κ) (v : α) {l : List (κ × α)}
    (h : (l.map Prod.fst).Nodup) : ((upsert k v l).map Prod.fst).Nodup := by
  rw [upsert_keys]
  by_cases hm : k ∈ l.map Prod.fst
  · simpa [hm] using h
  · rw [if_neg hm]
    exact h.append (List.nodup_singleton k) (by simpa using hm)

theorem alookup_updateAt (k k' : κ) (f : α → α) (l : List (κ × α)) :
    alookup k' (updateAt k f l) =
      if k' = k then (alookup k l).map f else alookup k' l := by
  induction l with
  | nil => by_cases h : k' = k <;> simp [updateAt, h]
  | cons p ps ih =>
      by_cases hp : p.1 = k
      · by_cases h : k' = k <;> simp [updateAt, hp, h, Ne.symm]
      · by_cases h : k' = k
        · subst h
          simp [updateAt, hp, ih, Ne.symm hp]
        · simp [updateAt, hp, ih, h]

theorem updateAt_keys (k : κ) (f : α → α) (l : List (κ × α)) :
    (updateAt k f l).map Prod.fst = l.map Prod.fst := by
  induction l with
  | nil => rfl
  | cons p ps ih => by_cases hp : p.1 = k <;> simp [updateAt, hp, ih]

theorem alookup_appendAt_self (k : κ) (x : α) (l : List (κ × List α)) :
    alookup k (appendAt k x l) = some ((alookup k l).getD [] ++ [x]) := by
  induction l with
  | nil => simp [appendAt]
  | cons p ps ih => by_cases hp : p.1 = k <;> simp [appendAt, hp, ih]

theorem alookup_appendAt_ne {k k' : κ} (h : k' ≠ k) (x : α) (l : List (κ × List α)) :
    alookup k' (appendAt k x l) = alookup k' l := by
  induction l with
  | nil => simp [appendAt, Ne.symm h]
  | cons p ps ih =>
      by_cases hp : p.1 = k
      · simp [appendAt, hp, Ne.symm h, hp ▸ (Ne.symm h)]
      · simp [appendAt, hp, ih]

theorem alookup_upsertWith (k k' : κ) (f : Option α → α) (l : List (κ × α)) :
    alookup k' (upsertWith k f l) =
      if k' = k then some (f (alookup k l)) else alookup k' l := by
  induction l with
  | nil => by_cases h : k' = k <;> simp [upsertWith, h, Ne.symm]
  | cons p ps ih =>
      by_cases hp : p.1 = k
      · by_cases h : k' = k <;> simp [upsertWith, hp, h, Ne.symm]
      · by_cases h : k' = k
        · subst h
          simp [upsertWith, hp, ih, Ne.symm hp]
        · simp [upsertWith, hp, ih, h]

theorem upsertWith_keys (k : κ) (f : Option α → α) (l : List (κ × α)) :
    (upsertWith k f l).map Prod.fst =
      if k ∈ l.map Prod.fst then l.map Prod.fst else l.map Prod.fst ++ [k] := by
  induction l with
  | nil => simp [upsertWith]
  | cons p ps ih =>
      by_cases hp : p.1 = k
      · simp [upsertWith, hp]
      · by_cases hm : k ∈ ps.map Prod.fst <;> simp [upsertWith, hp, ih, hm, Ne.symm hp]

theorem upsertWith_keys_nodup (k : κ) (f : Option α → α) {l : List (κ × α)}
    (h : (l.map Prod.fst).Nodup) : ((upsertWith k f l).map Prod.fst).Nodup := by
  rw [upsertWith_keys]
  by_cases hm : k ∈ l.map Prod.fst
  · simpa [hm] using h
  · rw [if_neg hm]
    exact h.append (List.nodup_singleton k) (by simpa using hm)

theorem upsertWith_keys_subset (k : κ) (f : Option α → α) {l : List (κ × α)} {k' : κ}
    (h : k' ∈ (upsertWith k f l).map Prod.fst) :
    k' = k ∨ k' ∈ l.map Prod.fst := by
  rw [upsertWith_keys] at h
  split_ifs at h with hm
  · exact Or.inr h
  · rcases List.mem_append.mp h with h | h
    · exact Or.inr h
    · exact Or.inl (by simpa using h)

theorem mem_upsert {k : κ} {v : α} {q : κ × α} :
    ∀ {l : List (κ × α)}, q ∈ upsert k v l → q = (k, v) ∨ q ∈ l := by
  intro l
  induction l with
  | nil => intro h; simpa [upsert] using h
  | cons p ps ih =>
      intro h
      by_cases hp : p.1 = k
      · simp only [upsert, if_pos hp, List.mem_cons] at h
        rcases h with h | h
        · exact Or.inl h
        · exact Or.inr (List.mem_cons_of_mem p h)
      · simp only [upsert, if_neg hp, List.mem_cons] at h
        rcases h with h | h
        · exact Or.inr (h ▸ List.mem_cons_self p ps)
        · rcases ih h with h' | h'
          · exact Or.inl h'
          · exact Or.inr (List.mem_cons_of_mem p h')

theorem upsertWith_keys_forall {P : κ → Prop} {k : κ} {f : Option α → α}
    {l : List (κ × α)} (hl : ∀ p ∈ l, P p.1) (hk : P k) :
    ∀ p ∈ upsertWith k f l, P p.1 := by
  induction l with
  | nil => intro p hp; simp only [upsertWith, List.mem_singleton] at hp; exact hp ▸ hk
  | cons q qs ih =>
      intro p hp
      by_cases hq : q.1 = k
      · simp only [upsertWith, if_pos hq, List.mem_cons] at hp
        rcases hp with rfl | hp
        · exact hk
        · exact hl p (List.mem_cons_of_mem q hp)
      · simp only [upsertWith, if_neg hq, List.mem_cons] at hp
        rcases hp with rfl | hp
        · exact hl _ (List.mem_cons_self _ _)
        · exact ih (fun r hr => hl r (List.mem_cons_of_mem q hr)) p hp

theorem appendAt_keys (k : κ) (x : α) (l : List (κ × List α)) :
    (appendAt k x l).map Prod.fst =
      if k ∈ l.map Prod.fst then l.map Prod.fst else l.map Prod.fst ++ [k] := by
  induction l with
  | nil => simp [appendAt]
  | cons p ps ih =>
      by_cases hp : p.1 = k
      · simp [appendAt, hp]
      · by_cases hm : k ∈ ps.map Prod.fst <;> simp [appendAt, hp, ih, hm, Ne.symm hp]

theorem appendAt_keys_nodup (k : κ) (x : α) {l : List (κ × List α)}
    (h : (l.map Prod.fst).Nodup) : ((appendAt k x l).map Prod.fst).Nodup := by
  rw [appendAt_keys]
  by_cases hm : k ∈ l.map Prod.fst
  · simpa [hm] using h
  · rw [if_neg hm]
    exact h.append (List.nodup_singleton k) (by simpa using hm)

theorem mem_keys {k : κ} {l : List (κ × α)} :
    k ∈ l.map Prod.fst ↔ ∃ v, (k, v) ∈ l := by
  rw [List.mem_map]
  constructor
  · rintro ⟨p, hp, rfl⟩
    exact ⟨p.2, by simpa using hp⟩
  · rintro ⟨v, hv⟩
    exact ⟨(k, v), hv, rfl⟩

theorem upsert_key_self (k : κ) (v : α) (l : List (κ × α)) :
    k ∈ (upsert k v l).map Prod.fst := by
  rw [upsert_keys]
  by_cases hm : k ∈ l.map Prod.fst
  · simpa [hm] using hm
  · simp [hm]

theorem upsert_keys_mono {k' : κ} (k : κ) (v : α) {l : List (κ × α)}
    (h : k' ∈ l.map Prod.fst) : k' ∈ (upsert k v l).map Prod.fst := by
  rw [upsert_keys]
  by_cases hm : k ∈ l.map Prod.fst
  · simpa [hm] using h
  · simp only [if_neg hm]
    exact List.mem_append_left _ h

end AList

/-! ### Stable-sort lemmas -/

theorem seqInsert_perm (x : String × Nat) (l : List (String × Nat)) :
    (seqInsert x l).Perm (x :: l) := by
  induction l with
  | nil => exact List.Perm.refl _
  | cons y ys ih =>
      by_cases h : y.2 < x.2
      · simp only [seqInsert, if_pos h]
        exact (ih.cons y).trans (List.Perm.swap x y ys)
      · simp [seqInsert, h]

theorem sortBySeq_perm (l : List (String × Nat)) : (sortBySeq l).Perm l := by
  induction l with
  | nil => exact List.Perm.refl _
  | cons x xs ih => exact (seqInsert_perm x (sortBySeq xs)).trans (ih.cons x)

theorem seqInsert_pairwise {x : String × Nat} {l : List (String × Nat)}
    (h : l.Pairwise fun a b => a.2 ≤ b.2) :
    (seqInsert x l).Pairwise fun a b => a.2 ≤ b.2 := by
  induction l with
  | nil => simp [seqInsert]
  | cons y ys ih =>
      rw [List.pairwise_cons] at h
      obtain ⟨hy, hys⟩ := h
      by_cases hc : y.2 < x.2
      · simp only [seqInsert, if_pos hc]
        refine List.Pairwise.cons ?_ (ih hys)
        intro z hz
        rcases List.mem_cons.mp ((seqInsert_perm x ys).mem_iff.mp hz) with rfl | hz'
        · exact Nat.le_of_lt hc
        · exact hy z hz'
      · simp only [seqInsert, if_neg hc]
        refine List.Pairwise.cons ?_ (List.Pairwise.cons hy hys)
        intro z hz
        rcases List.mem_cons.mp hz with rfl | hz'
        · exact Nat.le_of_not_lt hc
        · exact Nat.le_trans (Nat.le_of_not_lt hc) (hy z hz')

theorem sortBySeq_pairwise (l : List (String × Nat)) :
    (sortBySeq l).Pairwise fun a b => a.2 ≤ b.2 := by
  induction l with
  | nil => simp [sortBySeq]
  | cons x xs ih => exact seqInsert_pairwise ih

theorem seqInsert_filter (x : String × Nat) (l : List (String × Nat)) (k : Nat) :
    (seqInsert x l).filter (fun p => decide (p.2 = k)) =
      if x.2 = k then x :: l.filter (fun p => decide (p.2 = k))
      else l.filter (fun p => decide (p.2 = k)) := by
  induction l with
  | nil => by_cases h : x.2 = k <;> simp [seqInsert, List.filter, h]
  | cons y ys ih =>
      by_cases hc : y.2 < x.2
      · simp only [seqInsert, if_pos hc]
        by_cases hx : x.2 = k
        · have hy : ¬ y.2 = k := fun hk => absurd (hx ▸ hk ▸ hc) (lt_irrefl _)
          simp [List.filter, hy, ih, hx]
        · by_cases hy : y.2 = k <;> simp [List.filter, hy, ih, hx]
      · simp only [seqInsert, if_neg hc]
        by_cases hx : x.2 = k <;> simp [List.filter, hx]

theorem sortBySeq_filter (l : List (String × Nat)) (k : Nat) :
    (sortBySeq l).filter (fun p => decide (p.2 = k)) =
      l.filter (fun p => decide (p.2 = k)) := by
  induction l with
  | nil => rfl
  | cons x xs ih =>
      by_cases hx : x.2 = k <;>
        simp [sortBySeq, seqInsert_filter, hx, ih, List.filter]

/-! ### Fold machinery over the `Option` monad -/

theorem foldlM_option_isSome {α β : Type} (f : β → α → Option β) (P : α → Prop)
    (hf : ∀ b a, P a → (f b a).isSome = true) :
    ∀ (l : List α) (b : β), (∀ a ∈ l, P a) → (l.foldlM f b).isSome = true := by
  intro l
  induction l with
  | nil => intro b _; simp
  | cons a as ih =>
      intro b hl
      rw [List.foldlM_cons]
      rcases Option.isSome_iff_exists.mp (hf b a (hl a (List.mem_cons_self a as))) with ⟨b', hb⟩
      rw [hb]
      simpa using ih b' fun x hx => hl x (List.mem_cons_of_mem a hx)

theorem foldlM_option_skip {α β : Type} (f : β → α → Option β) (a0 : α)
    (h : ∀ b, f b a0 = some b) :
    ∀ (l1 l2 : List α) (b : β),
      (l1 ++ a0 :: l2).foldlM f b = (l1 ++ l2).foldlM f b := by
  intro l1
  induction l1 with
  | nil =>
      intro l2 b
      simp [List.foldlM_cons, h b]
  | cons x xs ih =>
      intro l2 b
      simp only [List.cons_append, List.foldlM_cons]
      cases f b x with
      | none => rfl
      | some b' => exact ih l2 b'

theorem foldl_skip {α β : Type} (f : β → α → β) (a0 : α) (h : ∀ b, f b a0 = b) :
    ∀ (l1 l2 : List α) (b : β), (l1 ++ a0 :: l2).foldl f b = (l1 ++ l2).foldl f b := by
  intro l1
  induction l1 with
  | nil => intro l2 b; simp [List.foldl_cons, h b]
  | cons x xs ih => intro l2 b; simp [List.foldl_cons, ih]

theorem parse_eq_some {script : List Stmt} {m : ParsedModel} :
    parse script = some m ↔
      ∃ kns cs0 lps0 rels0 cc pp,
        script.foldlM nodeStep [] = some kns ∧
        script.foldlM conceptStep [] = some cs0 ∧
        script.foldlM pathStep [] = some lps0 ∧
        script.foldlM relStep [] = some rels0 ∧
        script.foldlM containsStep ([], cs0) = some cc ∧
        script.foldlM includesStep ([], lps0) = some pp ∧
        m = { knowledge_nodes := kns
              concepts := applySeqs cc.1 cc.2
              learning_paths := applyPathSeqs pp.1 pp.2
              relationships := script.foldl prereqStep rels0 } := by
  simp only [parse, Option.bind_eq_some, Option.some.injEq]
  constructor
  · rintro ⟨kns, h1, cs0, h2, lps0, h3, rels0, h4, cc, h5, pp, h6, h7⟩
    exact ⟨kns, cs0, lps0, rels0, cc, pp, h1, h2, h3, h4, h5, h6, h7.symm⟩
  · rintro ⟨kns, cs0, lps0, rels0, cc, pp, h1, h2, h3, h4, h5, h6, h7⟩
    exact ⟨kns, h1, cs0, h2, lps0, h3, rels0, h4, cc, h5, pp, h6, h7.symm⟩


/-! ### Generic fold preservation -/

theorem foldl_preserve {α β : Type} (f : β → α → β) (P : β → Prop)
    (hf : ∀ b a, P b → P (f b a)) :
    ∀ (l : List α) (b : β), P b → P (l.foldl f b) := by
  intro l
  induction l with
  | nil => intro b h; exact h
  | cons a as ih => intro b h; exact ih (f b a) (hf b a h)

theorem foldl_upsert_key_mem {β α' : Type} (g : String × β → α') :
    ∀ (l : List (String × β)) (acc : List (String × α')) (k : String),
      (k ∈ acc.map Prod.fst ∨ ∃ x, (k, x) ∈ l) →
      k ∈ (l.foldl (fun acc p => upsert p.1 (g p) acc) acc).map Prod.fst := by
  intro l
  induction l with
  | nil =>
      intro acc k h
      rcases h with h | ⟨x, hx⟩
      · exact h
      · simp at hx
  | cons p ps ih =>
      intro acc k h
      rw [List.foldl_cons]
      rcases h with h | ⟨x, hx⟩
      · exact ih _ k (Or.inl (upsert_keys_mono _ _ h))
      · rcases List.mem_cons.mp hx with hx | hx
        · have : k = p.1 := congrArg Prod.fst hx
          exact ih _ k (Or.inl (this ▸ upsert_key_self p.1 (g p) acc))
        · exact ih _ k (Or.inr ⟨x, hx⟩)

/-! ### Graph and builder lemmas -/

theorem hasNode_iff {G : Graph} {v : String} :
    G.hasNode v = true ↔ ∃ d, (v, d) ∈ G.nodes := by
  unfold Graph.hasNode
  rw [List.any_eq_true]
  constructor
  · rintro ⟨p, hp, he⟩
    have h1 : p.1 = v := by simpa using he
    exact ⟨p.2, by rw [← h1]; simpa using hp⟩
  · rintro ⟨d, hd⟩
    exact ⟨(v, d), hd, by simp⟩

theorem mem_nodeIds {G : Graph} {v : String} :
    v ∈ G.nodeIds ↔ ∃ d, (v, d) ∈ G.nodes := mem_keys

theorem hasNode_iff_mem_nodeIds {G : Graph} {v : String} :
    G.hasNode v = true ↔ v ∈ G.nodeIds := by
  rw [hasNode_iff, mem_nodeIds]

theorem buildNodes_key_of_concept {m : ParsedModel} {cid : String} {c : Concept}
    (h : (cid, c) ∈ m.concepts) : cid ∈ (buildNodes m).map Prod.fst := by
  unfold buildNodes
  refine foldl_upsert_key_mem _ _ _ _ (Or.inl ?_)
  exact foldl_upsert_key_mem _ _ _ _ (Or.inr ⟨c, h⟩)

theorem buildNodes_key_of_path {m : ParsedModel} {pid : String} {p : LearningPath}
    (h : (pid, p) ∈ m.learning_paths) : pid ∈ (buildNodes m).map Prod.fst := by
  unfold buildNodes
  exact foldl_upsert_key_mem _ _ _ _ (Or.inr ⟨p, h⟩)

theorem build_hasNode (m : ParsedModel) (v : String) :
    (build m).hasNode v = ((buildNodes m).any fun p => p.1 == v) := rfl

theorem build_hasNode_of_concept {m : ParsedModel} {cid : String} {c : Concept}
    (h : (cid, c) ∈ m.concepts) : (build m).hasNode cid = true := by
  exact hasNode_iff.mpr (mem_keys.mp (buildNodes_key_of_concept h))

theorem build_hasNode_of_path {m : ParsedModel} {pid : String} {p : LearningPath}
    (h : (pid, p) ∈ m.learning_paths) : (build m).hasNode pid = true := by
  exact hasNode_iff.mpr (mem_keys.mp (buildNodes_key_of_path h))

/-! ### Edge-pass lemmas -/

theorem seqEdges_nodup (hasN : String → Bool) (ty src : String) :
    ∀ (s : List String) (i : Nat) {es : List ((String × String) × EdgeAttrs)},
      (es.map Prod.fst).Nodup → ((seqEdges hasN ty src i s es).map Prod.fst).Nodup := by
  intro s
  induction s with
  | nil => intro i es h; exact h
  | cons x xs ih =>
      intro i es h
      by_cases hx : hasN x = true <;> simp only [seqEdges, hx, if_true, if_false, Bool.false_eq_true]
      · exact ih (i + 1) (upsertWith_keys_nodup _ _ h)
      · exact ih (i + 1) h

theorem relEdges_nodup (hasN : String → Bool) (rels : List Relationship)
    {es : List ((String × String) × EdgeAttrs)} (h : (es.map Prod.fst).Nodup) :
    ((relEdges hasN rels es).map Prod.fst).Nodup := by
  refine foldl_preserve _ (fun es => (es.map Prod.fst).Nodup) ?_ rels es h
  intro es r hr
  by_cases hg : (hasN r.source && hasN r.target) = true
  · simpa [hg] using upsertWith_keys_nodup _ _ hr
  · simpa [hg] using hr

theorem containsEdges_nodup (hasN : String → Bool) (cs : List (String × Concept))
    {es : List ((String × String) × EdgeAttrs)} (h : (es.map Prod.fst).Nodup) :
    ((containsEdges hasN cs es).map Prod.fst).Nodup := by
  refine foldl_preserve _ (fun es => (es.map Prod.fst).Nodup) ?_ cs es h
  intro es p hp
  cases hs : p.2.sequence with
  | none => simpa [hs] using hp
  | some s => simpa [hs] using seqEdges_nodup hasN "CONTAINS" p.1 s 0 hp

theorem includesEdges_nodup (hasN : String → Bool) (lps : List (String × LearningPath))
    {es : List ((String × String) × EdgeAttrs)} (h : (es.map Prod.fst).Nodup) :
    ((includesEdges hasN lps es).map Prod.fst).Nodup := by
  refine foldl_preserve _ (fun es => (es.map Prod.fst).Nodup) ?_ lps es h
  intro es p hp
  cases hs : p.2.conceptSequence with
  | none => simpa [hs] using hp
  | some s => simpa [hs] using seqEdges_nodup hasN "INCLUDES" p.1 s 0 hp

theorem seqEdges_forall {hasN : String → Bool} {ty src : String}
    (hsrc : hasN src = true) :
    ∀ (s : List String) (i : Nat) {es : List ((String × String) × EdgeAttrs)},
      (∀ p ∈ es, hasN p.1.1 = true ∧ hasN p.1.2 = true) →
      ∀ p ∈ seqEdges hasN ty src i s es, hasN p.1.1 = true ∧ hasN p.1.2 = true := by
  intro s
  induction s with
  | nil => intro i es h; exact h
  | cons x xs ih =>
      intro i es h
      by_cases hx : hasN x = true <;> simp only [seqEdges, hx, if_true, if_false, Bool.false_eq_true]
      · refine ih (i + 1) ?_
        exact upsertWith_keys_forall (P := fun key : String × String => hasN key.1 = true ∧ hasN key.2 = true)
          h ⟨hsrc, hx⟩
      · exact ih (i + 1) h

theorem relEdges_forall (hasN : String → Bool) (rels : List Relationship)
    {es : List ((String × String) × EdgeAttrs)}
    (h : ∀ p ∈ es, hasN p.1.1 = true ∧ hasN p.1.2 = true) :
    ∀ p ∈ relEdges hasN rels es, hasN p.1.1 = true ∧ hasN p.1.2 = true := by
  refine foldl_preserve _ (fun es => ∀ p ∈ es, hasN p.1.1 = true ∧ hasN p.1.2 = true) ?_ rels es h
  intro es r hr
  by_cases hg : (hasN r.source && hasN r.target) = true
  · simp only [relEdges, hg, if_true]
    rcases Bool.and_eq_true_iff.mp hg with ⟨h1, h2⟩
    exact upsertWith_keys_forall (P := fun key : String × String => hasN key.1 = true ∧ hasN key.2 = true)
      hr ⟨h1, h2⟩
  · simpa [hg] using hr

theorem containsEdges_forall (hasN : String → Bool) {cs : List (String × Concept)}
    (hcs : ∀ q ∈ cs, hasN q.1 = true)
    {es : List ((String × String) × EdgeAttrs)}
    (h : ∀ p ∈ es, hasN p.1.1 = true ∧ hasN p.1.2 = true) :
    ∀ p ∈ containsEdges hasN cs es, hasN p.1.1 = true ∧ hasN p.1.2 = true := by
  induction cs generalizing es with
  | nil => exact h
  | cons q qs ih =>
      have hq := hcs q (List.mem_cons_self q qs)
      have hqs : ∀ r ∈ qs, hasN r.1 = true := fun r hr => hcs r (List.mem_cons_of_mem q hr)
      have hstep : containsEdges hasN (q :: qs) es =
          containsEdges hasN qs
            (match q.2.sequence with
             | some s => seqEdges hasN "CONTAINS" q.1 0 s es
             | none => es) := rfl
      rw [hstep]
      cases hs : q.2.sequence with
      | none => simp only [hs]; exact ih hqs h
      | some s => simp only [hs]; exact ih hqs (seqEdges_forall hq s 0 h)

theorem includesEdges_forall (hasN : String → Bool) {lps : List (String × LearningPath)}
    (hlps : ∀ q ∈ lps, hasN q.1 = true)
    {es : List ((String × String) × EdgeAttrs)}
    (h : ∀ p ∈ es, hasN p.1.1 = true ∧ hasN p.1.2 = true) :
    ∀ p ∈ includesEdges hasN lps es, hasN p.1.1 = true ∧ hasN p.1.2 = true := by
  induction lps generalizing es with
  | nil => exact h
  | cons q qs ih =>
      have hq := hlps q (List.mem_cons_self q qs)
      have hqs : ∀ r ∈ qs, hasN r.1 = true := fun r hr => hlps r (List.mem_cons_of_mem q hr)
      have hstep : includesEdges hasN (q :: qs) es =
          includesEdges hasN qs
            (match q.2.conceptSequence with
             | some s => seqEdges hasN "INCLUDES" q.1 0 s es
             | none => es) := rfl
      rw [hstep]
      cases hs : q.2.conceptSequence with
      | none => simp only [hs]; exact ih hqs h
      | some s => simp only [hs]; exact ih hqs (seqEdges_forall hq s 0 h)

theorem alookup_upsertSeq_ne (ty : String) (n : Nat)
    (es : List ((String × String) × EdgeAttrs)) {key key' : String × String}
    (h : key' ≠ key) : alookup key' (upsertSeq key ty n es) = alookup key' es := by
  unfold upsertSeq
  rw [alookup_upsertWith, if_neg h]

theorem alookup_upsertSeq_self (key : String × String) (ty : String) (n : Nat)
    (es : List ((String × String) × EdgeAttrs)) :
    ∃ a, alookup key (upsertSeq key ty n es) = some a ∧ a.relation = ty ∧ a.seq = some n := by
  unfold upsertSeq
  rw [alookup_upsertWith, if_pos rfl]
  cases alookup key es with
  | none => exact ⟨_, rfl, rfl, rfl⟩
  | some a => exact ⟨_, rfl, rfl, rfl⟩

theorem seqEdges_lookup_ne (hasN : String → Bool) (ty src : String) {key : String × String}
    (h : key.1 ≠ src) :
    ∀ (s : List String) (i : Nat) (es : List ((String × String) × EdgeAttrs)),
      alookup key (seqEdges hasN ty src i s es) = alookup key es := by
  intro s
  induction s with
  | nil => intro i es; rfl
  | cons x xs ih =>
      intro i es
      by_cases hx : hasN x = true <;>
        simp only [seqEdges, hx, if_true, if_false, Bool.false_eq_true]
      · rw [ih (i + 1), alookup_upsertSeq_ne _ _ _ fun he => h (congrArg Prod.fst he)]
      · exact ih (i + 1) es

theorem seqEdges_lookup_skip (hasN : String → Bool) (ty src : String) {nid : String} :
    ∀ (s : List String) (i : Nat) (es : List ((String × String) × EdgeAttrs)),
      (hasN nid = false ∨ nid ∉ s) →
      alookup (src, nid) (seqEdges hasN ty src i s es) = alookup (src, nid) es := by
  intro s
  induction s with
  | nil => intro i es _; rfl
  | cons x xs ih =>
      intro i es h
      have hxs : hasN nid = false ∨ nid ∉ xs := by
        rcases h with h | h
        · exact Or.inl h
        · exact Or.inr fun hm => h (List.mem_cons_of_mem x hm)
      by_cases hx : hasN x = true <;>
        simp only [seqEdges, hx, if_true, if_false, Bool.false_eq_true]
      · rw [ih (i + 1) _ hxs]
        by_cases hxe : x = nid
        · subst hxe
          rcases h with h | h
          · rw [h] at hx; cases hx
          · exact absurd (List.mem_cons_self x xs) h
        · refine alookup_upsertSeq_ne _ _ _ fun he => ?_
          exact hxe (congrArg Prod.snd he).symm
      · exact ih (i + 1) es hxs

theorem seqEdges_lookup_last (hasN : String → Bool) (ty src : String) {nid : String}
    (hn : hasN nid = true) :
    ∀ (pre post : List String) (i : Nat) (es : List ((String × String) × EdgeAttrs)),
      nid ∉ post →
      ∃ a, alookup (src, nid) (seqEdges hasN ty src i (pre ++ nid :: post) es) = some a ∧
        a.relation = ty ∧ a.seq = some (i + pre.length + 1) := by
  intro pre
  induction pre with
  | nil =>
      intro post i es hpost
      simp only [List.nil_append, seqEdges, hn, if_true]
      rw [seqEdges_lookup_skip hasN ty src post (i + 1) _ (Or.inr hpost)]
      obtain ⟨a, ha, h1, h2⟩ := alookup_upsertSeq_self (src, nid) ty (i + 1) es
      exact ⟨a, ha, h1, by rw [h2]; simp⟩
  | cons y pre' ih =>
      intro post i es hpost
      simp only [List.cons_append, seqEdges]
      obtain ⟨a, ha, h1, h2⟩ :=
        ih post (i + 1) (if hasN y then upsertSeq (src, y) ty (i + 1) es else es) hpost
      refine ⟨a, ha, h1, ?_⟩
      rw [h2]
      congr 1
      simp only [List.length_cons]
      omega

theorem containsEdges_lookup_other (hasN : String → Bool) {cid nid : String} :
    ∀ (cs : List (String × Concept)) (es : List ((String × String) × EdgeAttrs)),
      cid ∉ cs.map Prod.fst →
      alookup (cid, nid) (containsEdges hasN cs es) = alookup (cid, nid) es := by
  intro cs
  induction cs with
  | nil => intro es _; rfl
  | cons q qs ih =>
      intro es h
      have hq : q.1 ≠ cid := fun he => h (by simp [he])
      have hqs : cid ∉ qs.map Prod.fst := fun hm => h (List.mem_cons_of_mem _ hm)
      have hstep : containsEdges hasN (q :: qs) es =
          containsEdges hasN qs
            (match q.2.sequence with
             | some s => seqEdges hasN "CONTAINS" q.1 0 s es
             | none => es) := rfl
      rw [hstep]
      cases hs : q.2.sequence with
      | none => simp only [hs]; exact ih _ hqs
      | some s =>
          simp only [hs]
          rw [ih _ hqs, seqEdges_lookup_ne hasN "CONTAINS" q.1 (Ne.symm hq)]

theorem containsEdges_lookup (hasN : String → Bool) {cid : String} {c : Concept}
    {nid : String} {pre post : List String}
    (hseq : c.sequence = some (pre ++ nid :: post)) (hpost : nid ∉ post)
    (hn : hasN nid = true) :
    ∀ (cs : List (String × Concept)) (es : List ((String × String) × EdgeAttrs)),
      (cs.map Prod.fst).Nodup → (cid, c) ∈ cs →
      ∃ a, alookup (cid, nid) (containsEdges hasN cs es) = some a ∧
        a.relation = "CONTAINS" ∧ a.seq = some (pre.length + 1) := by
  intro cs
  induction cs with
  | nil => intro es _ hmem; cases hmem
  | cons q qs ih =>
      intro es hnd hmem
      have hstep : containsEdges hasN (q :: qs) es =
          containsEdges hasN qs
            (match q.2.sequence with
             | some s => seqEdges hasN "CONTAINS" q.1 0 s es
             | none => es) := rfl
      rw [hstep]
      have hnd2 := hnd
      rw [List.map_cons, List.nodup_cons] at hnd2
      rcases List.mem_cons.mp hmem with heq | hmem'
      · have hq1 : q.1 = cid := (congrArg Prod.fst heq).symm
        have hqs : cid ∉ qs.map Prod.fst := hq1 ▸ hnd2.1
        rw [containsEdges_lookup_other hasN qs _ hqs]
        have hq2 : q.2 = c := (congrArg Prod.snd heq).symm
        simp only [hq2, hseq]
        rw [← hq1]
        obtain ⟨a, ha, h1, h2⟩ :=
          seqEdges_lookup_last hasN "CONTAINS" q.1 hn pre post 0 es hpost
        exact ⟨a, ha, h1, by rw [h2]; simp⟩
      · exact ih _ hnd2.2 hmem'

theorem includesEdges_lookup_other (hasN : String → Bool) {pid nid : String} :
    ∀ (lps : List (String × LearningPath)) (es : List ((String × String) × EdgeAttrs)),
      pid ∉ lps.map Prod.fst →
      alookup (pid, nid) (includesEdges hasN lps es) = alookup (pid, nid) es := by
  intro lps
  induction lps with
  | nil => intro es _; rfl
  | cons q qs ih =>
      intro es h
      have hq : q.1 ≠ pid := fun he => h (by simp [he])
      have hqs : pid ∉ qs.map Prod.fst := fun hm => h (List.mem_cons_of_mem _ hm)
      have hstep : includesEdges hasN (q :: qs) es =
          includesEdges hasN qs
            (match q.2.conceptSequence with
             | some s => seqEdges hasN "INCLUDES" q.1 0 s es
             | none => es) := rfl
      rw [hstep]
      cases hs : q.2.conceptSequence with
      | none => simp only [hs]; exact ih _ hqs
      | some s =>
          simp only [hs]
          rw [ih _ hqs, seqEdges_lookup_ne hasN "INCLUDES" q.1 (Ne.symm hq)]

theorem includesEdges_lookup (hasN : String → Bool) {pid : String} {lp : LearningPath}
    {cid : String} {pre post : List String}
    (hseq : lp.conceptSequence = some (pre ++ cid :: post)) (hpost : cid ∉ post)
    (hn : hasN cid = true) :
    ∀ (lps : List (String × LearningPath)) (es : List ((String × String) × EdgeAttrs)),
      (lps.map Prod.fst).Nodup → (pid, lp) ∈ lps →
      ∃ a, alookup (pid, cid) (includesEdges hasN lps es) = some a ∧
        a.relation = "INCLUDES" ∧ a.seq = some (pre.length + 1) := by
  intro lps
  induction lps with
  | nil => intro es _ hmem; cases hmem
  | cons q qs ih =>
      intro es hnd hmem
      have hstep : includesEdges hasN (q :: qs) es =
          includesEdges hasN qs
            (match q.2.conceptSequence with
             | some s => seqEdges hasN "INCLUDES" q.1 0 s es
             | none => es) := rfl
      rw [hstep]
      have hnd2 := hnd
      rw [List.map_cons, List.nodup_cons] at hnd2
      rcases List.mem_cons.mp hmem with heq | hmem'
      · have hq1 : q.1 = pid := (congrArg Prod.fst heq).symm
        have hqs : pid ∉ qs.map Prod.fst := hq1 ▸ hnd2.1
        rw [includesEdges_lookup_other hasN qs _ hqs]
        have hq2 : q.2 = lp := (congrArg Prod.snd heq).symm
        simp only [hq2, hseq]
        rw [← hq1]
        obtain ⟨a, ha, h1, h2⟩ :=
          seqEdges_lookup_last hasN "INCLUDES" q.1 hn pre post 0 es hpost
        exact ⟨a, ha, h1, by rw [h2]; simp⟩
      · exact ih _ hnd2.2 hmem'

theorem build_edges_keys_nodup (m : ParsedModel) :
    (((build m).edges).map Prod.fst).Nodup := by
  exact includesEdges_nodup _ _ (containsEdges_nodup _ _ (relEdges_nodup _ _ (by simp)))

theorem build_edges_endpoints (m : ParsedModel) :
    ∀ p ∈ (build m).edges,
      (build m).hasNode p.1.1 = true ∧ (build m).hasNode p.1.2 = true := by
  have hcs : ∀ q ∈ m.concepts, (build m).hasNode q.1 = true := fun q hq =>
    build_hasNode_of_concept (show (q.1, q.2) ∈ m.concepts by simpa using hq)
  have hlps : ∀ q ∈ m.learning_paths, (build m).hasNode q.1 = true := fun q hq =>
    build_hasNode_of_path (show (q.1, q.2) ∈ m.learning_paths by simpa using hq)
  exact includesEdges_forall _ hlps (containsEdges_forall _ hcs (relEdges_forall _ _ (by simp)))

theorem build_edge_none_of_missing {m : ParsedModel} {key : String × String}
    (h : (build m).hasNode key.2 = false) :
    alookup key (build m).edges = none := by
  cases ha : alookup key (build m).edges with
  | none => rfl
  | some a =>
      have hmem := alookup_mem ha
      have h2 := (build_edges_endpoints m (key, a) hmem).2
      rw [h] at h2
      cases h2

/-! ### Parse-pass lemmas -/

theorem foldlM_option_preserve {α β : Type} (f : β → α → Option β) (P : β → Prop)
    (hf : ∀ b a b', P b → f b a = some b' → P b') :
    ∀ (l : List α) (b res : β), l.foldlM f b = some res → P b → P res := by
  intro l
  induction l with
  | nil =>
      intro b res h hb
      have : b = res := by simpa using h
      exact this ▸ hb
  | cons a as ih =>
      intro b res h hb
      rw [List.foldlM_cons] at h
      rcases hcase : f b a with _ | b'
      · rw [hcase] at h; cases h
      · rw [hcase] at h
        exact ih b' res h (hf b a b' hb hcase)

theorem conceptStep_fold_inv :
    ∀ (script : List Stmt) (acc cs : List (String × Concept)),
      script.foldlM conceptStep acc = some cs →
      (∀ p ∈ acc, p.2.sequence = none ∧ p.2.nodes = []) →
      ∀ p ∈ cs, p.2.sequence = none ∧ p.2.nodes = [] := by
  intro script acc cs h hacc
  refine foldlM_option_preserve conceptStep
    (fun b => ∀ p ∈ b, p.2.sequence = none ∧ p.2.nodes = []) ?_ script acc cs h hacc
  intro b a b' hb hstep
  cases a
  case createConcept id name descr mins =>
      rcases Option.map_eq_some'.mp hstep with ⟨mn, _, rfl⟩
      intro p hp
      rcases mem_upsert hp with rfl | hp'
      · exact ⟨rfl, rfl⟩
      · exact hb p hp'
  all_goals
    exact (Option.some.injEq _ _ ▸ hstep : b = b') ▸ hb

theorem conceptStep_fold_nodup :
    ∀ (script : List Stmt) (acc cs : List (String × Concept)),
      script.foldlM conceptStep acc = some cs →
      (acc.map Prod.fst).Nodup → (cs.map Prod.fst).Nodup := by
  intro script acc cs h hacc
  refine foldlM_option_preserve conceptStep
    (fun b => (b.map Prod.fst).Nodup) ?_ script acc cs h hacc
  intro b a b' hb hstep
  cases a
  case createConcept id name descr mins =>
      rcases Option.map_eq_some'.mp hstep with ⟨mn, _, rfl⟩
      exact upsert_keys_nodup _ _ hb
  all_goals
    exact (Option.some.injEq _ _ ▸ hstep : b = b') ▸ hb

theorem containsStep_fold_cs_keys :
    ∀ (script : List Stmt)
      (st res : List (String × List (String × Nat)) × List (String × Concept)),
      script.foldlM containsStep st = some res →
      res.2.map Prod.fst = st.2.map Prod.fst := by
  intro script st res h
  refine foldlM_option_preserve containsStep
    (fun b => b.2.map Prod.fst = st.2.map Prod.fst) ?_ script st res h rfl
  intro b a b' hb hstep
  cases a
  case containsStmt c n sq =>
      rcases Option.map_eq_some'.mp hstep with ⟨k, _, rfl⟩
      by_cases hs : (alookup c b.2).isSome <;> simp [hs, updateAt_keys, hb]
  all_goals
    exact (Option.some.injEq _ _ ▸ hstep : b = b') ▸ hb

theorem containsStep_fold_cn_nodup :
    ∀ (script : List Stmt)
      (st res : List (String × List (String × Nat)) × List (String × Concept)),
      script.foldlM containsStep st = some res →
      (st.1.map Prod.fst).Nodup → (res.1.map Prod.fst).Nodup := by
  intro script st res h hst
  refine foldlM_option_preserve containsStep
    (fun b => (b.1.map Prod.fst).Nodup) ?_ script st res h hst
  intro b a b' hb hstep
  cases a
  case containsStmt c n sq =>
      rcases Option.map_eq_some'.mp hstep with ⟨k, _, rfl⟩
      exact appendAt_keys_nodup _ _ hb
  all_goals
    exact (Option.some.injEq _ _ ▸ hstep : b = b') ▸ hb

theorem containsStep_fold_pairs (cid : String) :
    ∀ (script : List Stmt) (cn : List (String × List (String × Nat)))
      (cs : List (String × Concept))
      (res : List (String × List (String × Nat)) × List (String × Concept)),
      script.foldlM containsStep (cn, cs) = some res →
      ∃ ps, containsPairs cid script = some ps ∧
        alookup cid res.1 =
          (if ps = [] then alookup cid cn
           else some ((alookup cid cn).getD [] ++ ps)) := by
  intro script
  induction script with
  | nil =>
      intro cn cs res h
      have he : (cn, cs) = res := by simpa using h
      exact ⟨[], rfl, by simp [← he]⟩
  | cons s rest ih =>
      intro cn cs res h
      rw [List.foldlM_cons] at h
      cases s
      case containsStmt c n sq =>
          rcases hk : strToNat? sq with _ | k
          · rw [show containsStep (cn, cs) (.containsStmt c n sq) =
                (strToNat? sq).map _ from rfl, hk] at h
            cases h
          · have hstep : containsStep (cn, cs) (.containsStmt c n sq) =
                some (appendAt c (n, k) cn,
                  if (alookup c cs).isSome then
                    updateAt c
                      (fun cc =>
                        if n ∈ cc.nodes then cc else { cc with nodes := cc.nodes ++ [n] }) cs
                  else cs) := by
              simp [containsStep, hk]
            rw [hstep] at h
            obtain ⟨ps, hps, hlook⟩ := ih _ _ res h
            by_cases hc : c = cid
            · subst hc
              refine ⟨(n, k) :: ps, by simp [containsPairs, hk, hps], ?_⟩
              rcases em (ps = []) with hps0 | hps0
              · rw [hps0] at hlook
                simp only [if_pos rfl] at hlook
                rw [hlook, alookup_appendAt_self]
                simp [hps0]
              · rw [if_neg hps0] at hlook
                rw [hlook, alookup_appendAt_self]
                simp only [if_neg (List.cons_ne_nil (n, k) ps), Option.getD_some]
                rw [List.append_assoc]
                simp
            · refine ⟨ps, by simpa [containsPairs, hc] using hps, ?_⟩
              rw [hlook]
              rcases em (ps = []) with hps0 | hps0 <;>
                simp [hps0, alookup_appendAt_ne (fun he => hc he.symm)]
      all_goals
        { obtain ⟨ps, hps, hl⟩ := ih _ _ res h
          exact ⟨ps, hps, hl⟩ }

theorem containsStep_fold_nostmt (cid : String) :
    ∀ (script : List Stmt) (cn : List (String × List (String × Nat)))
      (cs : List (String × Concept))
      (res : List (String × List (String × Nat)) × List (String × Concept)),
      script.foldlM containsStep (cn, cs) = some res →
      (∀ s ∈ script, isContainsFor cid s = false) →
      alookup cid res.1 = alookup cid cn ∧ alookup cid res.2 = alookup cid cs := by
  intro script
  induction script with
  | nil =>
      intro cn cs res h _
      have he : (cn, cs) = res := by simpa using h
      exact ⟨by simp [← he], by simp [← he]⟩
  | cons s rest ih =>
      intro cn cs res h hno
      have hnos : ∀ t ∈ rest, isContainsFor cid t = false := fun t ht =>
        hno t (List.mem_cons_of_mem s ht)
      rw [List.foldlM_cons] at h
      cases s
      case containsStmt c n sq =>
          have hc : c ≠ cid := by
            have := hno _ (List.mem_cons_self _ rest)
            simpa [isContainsFor] using this
          rcases hk : strToNat? sq with _ | k
          · rw [show containsStep (cn, cs) (.containsStmt c n sq) =
                (strToNat? sq).map _ from rfl, hk] at h
            cases h
          · have hstep : containsStep (cn, cs) (.containsStmt c n sq) =
                some (appendAt c (n, k) cn,
                  if (alookup c cs).isSome then
                    updateAt c
                      (fun cc =>
                        if n ∈ cc.nodes then cc else { cc with nodes := cc.nodes ++ [n] }) cs
                  else cs) := by
              simp [containsStep, hk]
            rw [hstep] at h
            obtain ⟨h1, h2⟩ := ih _ _ res h hnos
            refine ⟨?_, ?_⟩
            · rw [h1, alookup_appendAt_ne (fun he => hc he.symm)]
            · rw [h2]
              by_cases hs : (alookup c cs).isSome = true
              · rw [if_pos hs, alookup_updateAt,
                  if_neg (show cid ≠ c from fun he => hc he.symm)]
              · rw [if_neg hs]
      all_goals
        exact ih _ _ res h hnos

theorem applySeqs_keys (cn : List (String × List (String × Nat)))
    (cs : List (String × Concept)) :
    (applySeqs cn cs).map Prod.fst = cs.map Prod.fst := by
  refine foldl_preserve _ (fun b => b.map Prod.fst = cs.map Prod.fst) ?_ cn cs rfl
  intro b p hb
  rw [updateAt_keys, hb]

theorem applySeqs_lookup_none {cid : String} :
    ∀ (cn : List (String × List (String × Nat))) (cs : List (String × Concept)),
      alookup cid cn = none →
      alookup cid (applySeqs cn cs) = alookup cid cs := by
  intro cn
  induction cn with
  | nil => intro cs _; rfl
  | cons p rest ih =>
      intro cs h
      have hp : p.1 ≠ cid := by
        intro he
        simp [alookup_cons, he] at h
      have hrest : alookup cid rest = none := by
        simpa [alookup_cons, hp] using h
      have hstep : applySeqs (p :: rest) cs =
          applySeqs rest
            (updateAt p.1
              (fun c => { c with sequence := some ((sortBySeq p.2).map Prod.fst) }) cs) := rfl
      rw [hstep, ih _ hrest, alookup_updateAt,
        if_neg (show cid ≠ p.1 from fun he => hp he.symm)]

theorem applySeqs_lookup_some {cid : String} {ps : List (String × Nat)} :
    ∀ (cn : List (String × List (String × Nat))) (cs : List (String × Concept)),
      (cn.map Prod.fst).Nodup → alookup cid cn = some ps →
      alookup cid (applySeqs cn cs) =
        (alookup cid cs).map
          (fun c => { c with sequence := some ((sortBySeq ps).map Prod.fst) }) := by
  intro cn
  induction cn with
  | nil => intro cs _ h; cases h
  | cons p rest ih =>
      intro cs hnd h
      have hnd2 := hnd
      rw [List.map_cons, List.nodup_cons] at hnd2
      have hstep : applySeqs (p :: rest) cs =
          applySeqs rest
            (updateAt p.1
              (fun c => { c with sequence := some ((sortBySeq p.2).map Prod.fst) }) cs) := rfl
      by_cases hp : p.1 = cid
      · have hps : p.2 = ps := by
          simpa [alookup_cons, hp] using h
        have hrest : alookup cid rest = none :=
          alookup_eq_none.mpr (hp ▸ hnd2.1)
        rw [hstep, applySeqs_lookup_none _ _ hrest, alookup_updateAt]
        simp [hp, hps]
      · have hrest : alookup cid rest = some ps := by
          simpa [alookup_cons, hp] using h
        rw [hstep, ih _ hnd2.2 hrest, alookup_updateAt,
          if_neg (show cid ≠ p.1 from fun he => hp he.symm)]

theorem relStep_fold_mono {r : Relationship} :
    ∀ (script : List Stmt) (acc res : List Relationship),
      script.foldlM relStep acc = some res → r ∈ acc → r ∈ res := by
  intro script acc res h hr
  refine foldlM_option_preserve relStep (fun b => r ∈ b) ?_ script acc res h hr
  intro b a b' hb hstep
  cases a
  case relStmt src tgt ty st j =>
      rcases Option.map_eq_some'.mp hstep with ⟨stn, _, rfl⟩
      exact List.mem_append_left _ hb
  all_goals
    exact (Option.some.injEq _ _ ▸ hstep : b = b') ▸ hb

theorem relStep_fold_mem {src tgt ty st j : String} :
    ∀ (script : List Stmt) (acc res : List Relationship),
      script.foldlM relStep acc = some res →
      Stmt.relStmt src tgt ty st j ∈ script →
      ∃ stn, strToNat? st = some stn ∧ (⟨src, tgt, ty, stn, j⟩ : Relationship) ∈ res := by
  intro script
  induction script with
  | nil => intro acc res _ hmem; cases hmem
  | cons s rest ih =>
      intro acc res h hmem
      rw [List.foldlM_cons] at h
      rcases List.mem_cons.mp hmem with heq | hmem'
      · cases heq.symm
        rcases hk : strToNat? st with _ | stn
        · rw [show relStep acc (.relStmt src tgt ty st j) = (strToNat? st).map _ from rfl,
            hk] at h
          cases h
        · have hstep : relStep acc (.relStmt src tgt ty st j) =
              some (acc ++ [⟨src, tgt, ty, stn, j⟩]) := by
            simp [relStep, hk]
          rw [hstep] at h
          refine ⟨stn, rfl, relStep_fold_mono rest _ res h ?_⟩
          exact List.mem_append_right _ (List.mem_singleton.mpr rfl)
      · cases s
        case relStmt src' tgt' ty' st' j' =>
            rcases hk : strToNat? st' with _ | stn'
            · rw [show relStep acc (.relStmt src' tgt' ty' st' j') =
                  (strToNat? st').map _ from rfl, hk] at h
              cases h
            · have hstep : relStep acc (.relStmt src' tgt' ty' st' j') =
                  some (acc ++ [⟨src', tgt', ty', stn', j'⟩]) := by
                simp [relStep, hk]
              rw [hstep] at h
              exact ih _ res h hmem'
        all_goals
          exact ih _ res h hmem'

theorem prereqStep_foldl_mono {r : Relationship} :
    ∀ (script : List Stmt) (acc : List Relationship),
      r ∈ acc → r ∈ script.foldl prereqStep acc := by
  intro script acc hr
  refine foldl_preserve prereqStep (fun b => r ∈ b) ?_ script acc hr
  intro b a hb
  cases a
  case prereqStmt x y => exact List.mem_append_left _ hb
  all_goals exact hb

/-! ### Parse-level composite lemmas -/

theorem parse_rel_mem {script : List Stmt} {m : ParsedModel} {src tgt ty st j : String}
    (hp : parse script = some m) (hmem : Stmt.relStmt src tgt ty st j ∈ script) :
    ∃ stn, strToNat? st = some stn ∧
      (⟨src, tgt, ty, stn, j⟩ : Relationship) ∈ m.relationships := by
  obtain ⟨kns, cs0, lps0, rels0, cc, pp, _, _, _, h4, _, _, hm⟩ := parse_eq_some.mp hp
  obtain ⟨stn, hst, hr⟩ := relStep_fold_mem script [] rels0 h4 hmem
  exact ⟨stn, hst, by rw [hm]; exact prereqStep_foldl_mono script rels0 hr⟩

theorem parse_concepts_keys_nodup {script : List Stmt} {m : ParsedModel}
    (hp : parse script = some m) : (m.concepts.map Prod.fst).Nodup := by
  obtain ⟨kns, cs0, lps0, rels0, cc, pp, _, h2, _, _, h5, _, hm⟩ := parse_eq_some.mp hp
  have hcs0 : (cs0.map Prod.fst).Nodup :=
    conceptStep_fold_nodup script [] cs0 h2 (by simp)
  have hk : cc.2.map Prod.fst = cs0.map Prod.fst := containsStep_fold_cs_keys script _ cc h5
  rw [hm]
  show ((applySeqs cc.1 cc.2).map Prod.fst).Nodup
  rw [applySeqs_keys, hk]
  exact hcs0

theorem parse_concept_sequence {script : List Stmt} {m : ParsedModel} {cid : String}
    {c : Concept} {pairs : List (String × Nat)}
    (hp : parse script = some m)
    (hc : alookup cid m.concepts = some c)
    (hpairs : containsPairs cid script = some pairs)
    (hne : pairs ≠ []) :
    c.sequence = some ((sortBySeq pairs).map Prod.fst) := by
  obtain ⟨kns, cs0, lps0, rels0, cc, pp, _, _, _, _, h5, _, hm⟩ := parse_eq_some.mp hp
  obtain ⟨ps, hps, hlook⟩ := containsStep_fold_pairs cid script [] cs0 cc h5
  have hps' : ps = pairs := by rw [hps] at hpairs; exact Option.some.injEq _ _ ▸ hpairs
  subst hps'
  rw [if_neg hne] at hlook
  simp only [alookup_nil, Option.getD_none, List.nil_append] at hlook
  have hnd : (cc.1.map Prod.fst).Nodup :=
    containsStep_fold_cn_nodup script _ cc h5 (by simp)
  have := applySeqs_lookup_some cc.1 cc.2 hnd hlook
  rw [hm] at hc
  have hc2 : alookup cid (applySeqs cc.1 cc.2) = some c := hc
  rw [this] at hc2
  rcases Option.map_eq_some'.mp hc2 with ⟨c0, _, rfl⟩
  rfl

theorem parse_concept_no_containment {script : List Stmt} {m : ParsedModel}
    {cid : String} {c : Concept}
    (hp : parse script = some m)
    (hno : ∀ s ∈ script, isContainsFor cid s = false)
    (hc : alookup cid m.concepts = some c) :
    c.sequence = none ∧ c.nodes = [] := by
  obtain ⟨kns, cs0, lps0, rels0, cc, pp, _, h2, _, _, h5, _, hm⟩ := parse_eq_some.mp hp
  obtain ⟨hcn, hcs⟩ := containsStep_fold_nostmt cid script [] cs0 cc h5 hno
  rw [hm] at hc
  have hc2 : alookup cid (applySeqs cc.1 cc.2) = some c := hc
  rw [applySeqs_lookup_none cc.1 cc.2 (by simpa using hcn), hcs] at hc2
  have hmem := alookup_mem hc2
  exact conceptStep_fold_inv script [] cs0 h2 (by simp) (cid, c) hmem

/-! ### Totality of `parse` under the regex guarantees -/

theorem digitsCore_isSome {cs : List Char} (h : cs.all Char.isDigit = true) :
    ∀ acc, (digitsCore cs acc).isSome = true := by
  induction cs with
  | nil => intro acc; rfl
  | cons c cs ih =>
      intro acc
      rw [List.all_cons, Bool.and_eq_true] at h
      simp only [digitsCore, h.1, if_true]
      exact ih h.2 _

theorem strToNat?_isSome {s : String} (h : isDigitStr s = true) :
    (strToNat? s).isSome = true := by
  rw [isDigitStr, Bool.and_eq_true] at h
  have hne : s.data ≠ [] := by
    intro he
    rw [he] at h
    simp at h
  rw [strToNat?, if_neg hne]
  exact digitsCore_isSome h.2 0

theorem nodeStep_isSome (b : List (String × KnowledgeNode)) {s : Stmt} (h : StmtWF s) :
    (nodeStep b s).isSome = true := by
  cases s <;> try rfl
  case createNode id t d df mins sl stt =>
      rcases Option.isSome_iff_exists.mp (strToNat?_isSome h) with ⟨n, hn⟩
      simp [nodeStep, hn]

theorem conceptStep_isSome (b : List (String × Concept)) {s : Stmt} (h : StmtWF s) :
    (conceptStep b s).isSome = true := by
  cases s <;> try rfl
  case createConcept id nm d mins =>
      rcases Option.isSome_iff_exists.mp (strToNat?_isSome h) with ⟨n, hn⟩
      simp [conceptStep, hn]

theorem pathStep_isSome (b : List (String × LearningPath)) {s : Stmt} (h : StmtWF s) :
    (pathStep b s).isSome = true := by
  cases s <;> try rfl
  case createPath id nm d ta kc mins =>
      rcases Option.isSome_iff_exists.mp (strToNat?_isSome h) with ⟨n, hn⟩
      simp [pathStep, hn]

theorem relStep_isSome (b : List Relationship) {s : Stmt} (h : StmtWF s) :
    (relStep b s).isSome = true := by
  cases s <;> try rfl
  case relStmt src tgt ty st j =>
      rcases Option.isSome_iff_exists.mp (strToNat?_isSome h) with ⟨n, hn⟩
      simp [relStep, hn]

theorem containsStep_isSome
    (b : List (String × List (String × Nat)) × List (String × Concept)) {s : Stmt}
    (h : StmtWF s) : (containsStep b s).isSome = true := by
  cases s <;> try rfl
  case containsStmt cid nid sq =>
      rcases Option.isSome_iff_exists.mp (strToNat?_isSome h) with ⟨n, hn⟩
      simp [containsStep, hn]

theorem includesStep_isSome
    (b : List (String × List (String × Nat)) × List (String × LearningPath)) {s : Stmt}
    (h : StmtWF s) : (includesStep b s).isSome = true := by
  cases s <;> try rfl
  case includesStmt pid cid sq =>
      rcases Option.isSome_iff_exists.mp (strToNat?_isSome h) with ⟨n, hn⟩
      simp [includesStep, hn]

theorem parse_isSome {script : List Stmt} (hwf : ∀ s ∈ script, StmtWF s) :
    (parse script).isSome = true := by
  rcases Option.isSome_iff_exists.mp
    (foldlM_option_isSome nodeStep StmtWF (fun b a ha => nodeStep_isSome b ha)
      script [] hwf) with ⟨kns, h1⟩
  rcases Option.isSome_iff_exists.mp
    (foldlM_option_isSome conceptStep StmtWF (fun b a ha => conceptStep_isSome b ha)
      script [] hwf) with ⟨cs0, h2⟩
  rcases Option.isSome_iff_exists.mp
    (foldlM_option_isSome pathStep StmtWF (fun b a ha => pathStep_isSome b ha)
      script [] hwf) with ⟨lps0, h3⟩
  rcases Option.isSome_iff_exists.mp
    (foldlM_option_isSome relStep StmtWF (fun b a ha => relStep_isSome b ha)
      script [] hwf) with ⟨rels0, h4⟩
  rcases Option.isSome_iff_exists.mp
    (foldlM_option_isSome containsStep StmtWF (fun b a ha => containsStep_isSome b ha)
      script ([], cs0) hwf) with ⟨cc, h5⟩
  rcases Option.isSome_iff_exists.mp
    (foldlM_option_isSome includesStep StmtWF (fun b a ha => includesStep_isSome b ha)
      script ([], lps0) hwf) with ⟨pp, h6⟩
  simp [parse, h1, h2, h3, h4, h5, h6]

theorem bind_congr_aux {α β : Type} (x : Option α) {f g : α → Option β}
    (h : ∀ a, f a = g a) : x.bind f = x.bind g := by
  cases x with
  | none => rfl
  | some a => exact h a

theorem parse_skip_other (l1 l2 : List Stmt) (t : String) :
    parse (l1 ++ Stmt.other t :: l2) = parse (l1 ++ l2) := by
  unfold parse
  rw [foldlM_option_skip nodeStep (Stmt.other t) (fun b => rfl),
    foldlM_option_skip conceptStep (Stmt.other t) (fun b => rfl),
    foldlM_option_skip pathStep (Stmt.other t) (fun b => rfl),
    foldlM_option_skip relStep (Stmt.other t) (fun b => rfl)]
  refine bind_congr_aux _ fun kns => ?_
  refine bind_congr_aux _ fun cs0 => ?_
  refine bind_congr_aux _ fun lps0 => ?_
  refine bind_congr_aux _ fun rels0 => ?_
  rw [foldlM_option_skip containsStep (Stmt.other t) (fun b => rfl),
    foldlM_option_skip includesStep (Stmt.other t) (fun b => rfl),
    foldl_skip prereqStep (Stmt.other t) (fun b => rfl)]


/-! ### Selector lemmas -/

theorem mem_succs {G : Graph} {u v : String} : v ∈ succs G u ↔ edgeP G u v := by
  unfold succs edgeP
  rw [List.mem_toFinset, List.mem_filterMap]
  constructor
  · rintro ⟨e, he, hif⟩
    by_cases h1 : e.1.1 = u
    · rw [if_pos h1] at hif
      have h2 : e.1.2 = v := by simpa using hif
      have h3 : e.1 = (u, v) := Prod.ext h1 h2
      exact ⟨e.2, h3 ▸ (show (e.1, e.2) ∈ G.edges from he)⟩
    · rw [if_neg h1] at hif
      cases hif
  · rintro ⟨a, ha⟩
    exact ⟨((u, v), a), ha, by simp⟩

theorem mem_preds {G : Graph} {u v : String} : v ∈ preds G u ↔ edgeP G v u := by
  unfold preds edgeP
  rw [List.mem_toFinset, List.mem_filterMap]
  constructor
  · rintro ⟨e, he, hif⟩
    by_cases h1 : e.1.2 = u
    · rw [if_pos h1] at hif
      have h2 : e.1.1 = v := by simpa using hif
      have h3 : e.1 = (v, u) := Prod.ext h2 h1
      exact ⟨e.2, h3 ▸ (show (e.1, e.2) ∈ G.edges from he)⟩
    · rw [if_neg h1] at hif
      cases hif
  · rintro ⟨a, ha⟩
    exact ⟨((v, u), a), ha, by simp⟩

theorem pathN_snoc {G : Graph} :
    ∀ {n : Nat} {u v w : String}, pathN G n u v → edgeP G v w → pathN G (n + 1) u w := by
  intro n
  induction n with
  | zero =>
      intro u v w h he
      exact ⟨w, h ▸ he, rfl⟩
  | succ n ih =>
      intro u v w h he
      obtain ⟨x, hx, hp⟩ := h
      exact ⟨x, hx, ih hp he⟩

theorem pathN_succ_right {G : Graph} :
    ∀ {n : Nat} {u w : String},
      pathN G (n + 1) u w ↔ ∃ v, pathN G n u v ∧ edgeP G v w := by
  intro n
  induction n with
  | zero =>
      intro u w
      constructor
      · rintro ⟨v, he, hp⟩
        exact ⟨u, rfl, hp ▸ he⟩
      · rintro ⟨v, hp, he⟩
        exact ⟨w, hp ▸ he, rfl⟩
  | succ n ih =>
      intro u w
      constructor
      · rintro ⟨x, hx, hp⟩
        obtain ⟨v, hp2, he⟩ := ih.mp hp
        exact ⟨v, ⟨x, hx, hp2⟩, he⟩
      · rintro ⟨v, hp, he⟩
        obtain ⟨x, hx, hp2⟩ := hp
        exact ⟨x, hx, ih.mpr ⟨v, hp2, he⟩⟩

theorem mem_fwdBall {G : Graph} {s : String} :
    ∀ {n : Nat} {w : String},
      w ∈ fwdBall G s n ↔ ∃ i, i ≤ n ∧ pathN G i s w := by
  intro n
  induction n with
  | zero =>
      intro w
      simp only [fwdBall, Finset.mem_singleton]
      constructor
      · rintro rfl
        exact ⟨0, Nat.le_refl 0, rfl⟩
      · rintro ⟨i, hi, hp⟩
        have : i = 0 := Nat.le_zero.mp hi
        subst this
        exact hp.symm
  | succ n ih =>
      intro w
      simp only [fwdBall, Finset.mem_union, Finset.mem_biUnion]
      constructor
      · rintro (h | ⟨u, hu, hw⟩)
        · obtain ⟨i, hi, hp⟩ := ih.mp h
          exact ⟨i, Nat.le_succ_of_le hi, hp⟩
        · obtain ⟨i, hi, hp⟩ := ih.mp hu
          exact ⟨i + 1, Nat.succ_le_succ hi, pathN_snoc hp (mem_succs.mp hw)⟩
      · rintro ⟨i, hi, hp⟩
        rcases Nat.lt_or_ge i (n + 1) with hlt | hge
        · exact Or.inl (ih.mpr ⟨i, Nat.lt_succ_iff.mp hlt, hp⟩)
        · have hieq : i = n + 1 := Nat.le_antisymm hi hge
          subst hieq
          obtain ⟨v, hp2, he⟩ := pathN_succ_right.mp hp
          exact Or.inr ⟨v, ih.mpr ⟨n, Nat.le_refl n, hp2⟩, mem_succs.mpr he⟩

theorem mem_bwdBall {G : Graph} {X : Finset String} :
    ∀ {n : Nat} {v : String},
      v ∈ bwdBall G X n ↔ ∃ w ∈ X, ∃ i, i ≤ n ∧ pathN G i v w := by
  intro n
  induction n with
  | zero =>
      intro v
      simp only [bwdBall]
      constructor
      · intro hv
        exact ⟨v, hv, 0, Nat.le_refl 0, rfl⟩
      · rintro ⟨w, hw, i, hi, hp⟩
        have : i = 0 := Nat.le_zero.mp hi
        subst this
        exact hp ▸ hw
  | succ n ih =>
      intro v
      simp only [bwdBall, Finset.mem_union, Finset.mem_biUnion]
      constructor
      · rintro (h | ⟨u, hu, hv⟩)
        · obtain ⟨w, hw, i, hi, hp⟩ := ih.mp h
          exact ⟨w, hw, i, Nat.le_succ_of_le hi, hp⟩
        · obtain ⟨w, hw, i, hi, hp⟩ := ih.mp hu
          exact ⟨w, hw, i + 1, Nat.succ_le_succ hi, ⟨u, mem_preds.mp hv, hp⟩⟩
      · rintro ⟨w, hw, i, hi, hp⟩
        rcases Nat.lt_or_ge i (n + 1) with hlt | hge
        · exact Or.inl (ih.mpr ⟨w, hw, i, Nat.lt_succ_iff.mp hlt, hp⟩)
        · have hieq : i = n + 1 := Nat.le_antisymm hi hge
          subst hieq
          obtain ⟨u, he, hp2⟩ := hp
          exact Or.inr ⟨u, ih.mpr ⟨w, hw, n, Nat.le_refl n, hp2⟩, mem_preds.mpr he⟩

theorem succs_hasNode {G : Graph} (hwf : EdgesWF G) {u v : String}
    (h : v ∈ succs G u) : G.hasNode v = true := by
  obtain ⟨a, ha⟩ := mem_succs.mp h
  exact (hwf _ ha).2

theorem preds_hasNode {G : Graph} (hwf : EdgesWF G) {u v : String}
    (h : v ∈ preds G u) : G.hasNode v = true := by
  obtain ⟨a, ha⟩ := mem_preds.mp h
  exact (hwf _ ha).1

theorem fwdIter_hasNode {G : Graph} {s : String} (hwf : EdgesWF G) :
    ∀ (i : Nat), ∀ v ∈ fwdIter G s i, G.hasNode v = true := by
  intro i
  induction i with
  | zero => intro v hv; simp [fwdIter] at hv
  | succ i ih =>
      intro v hv
      simp only [fwdIter, Finset.mem_union, Finset.mem_biUnion] at hv
      rcases hv with hv | ⟨u, _, hv⟩
      · exact ih v hv
      · by_cases hn : G.hasNode u = true
        · rw [if_pos hn] at hv
          exact succs_hasNode hwf hv
        · rw [if_neg hn] at hv
          simp at hv

theorem bwdIter_hasNode {G : Graph} {s : String} {init : Finset String} (hwf : EdgesWF G)
    (hinit : ∀ v ∈ init, G.hasNode v = true) :
    ∀ (j : Nat), ∀ v ∈ bwdIter G s init j, G.hasNode v = true := by
  intro j
  induction j with
  | zero => intro v hv; exact hinit v hv
  | succ j ih =>
      intro v hv
      simp only [bwdIter, Finset.mem_union, Finset.mem_biUnion] at hv
      rcases hv with hv | ⟨u, _, hv⟩
      · exact ih v hv
      · by_cases hn : G.hasNode u = true
        · rw [if_pos hn] at hv
          exact preds_hasNode hwf hv
        · rw [if_neg hn] at hv
          simp at hv

theorem fwdIter_insert {G : Graph} {s : String} (hwf : EdgesWF G)
    (hs : G.hasNode s = true) :
    ∀ (i : Nat), insert s (fwdIter G s i) = fwdBall G s i := by
  intro i
  induction i with
  | zero => simp [fwdIter, fwdBall]
  | succ i ih =>
      show insert s (fwdIter G s i ∪ (insert s (fwdIter G s i)).biUnion _) = _
      rw [← Finset.insert_union]
      have hcong : (insert s (fwdIter G s i)).biUnion
          (fun n => if G.hasNode n then succs G n else ∅) =
          (insert s (fwdIter G s i)).biUnion (succs G) := by
        refine Finset.biUnion_congr rfl ?_
        intro a ha
        rcases Finset.mem_insert.mp ha with rfl | ha2
        · rw [if_pos hs]
        · rw [if_pos (fwdIter_hasNode hwf i a ha2)]
      rw [hcong, ih]
      show fwdBall G s i ∪ (fwdBall G s i).biUnion (succs G) = fwdBall G s (i + 1)
      rfl

theorem bwdIter_insert {G : Graph} {s : String} {init : Finset String} (hwf : EdgesWF G)
    (hs : G.hasNode s = true) (hinit : ∀ v ∈ init, G.hasNode v = true) :
    ∀ (j : Nat), insert s (bwdIter G s init j) = bwdBall G (insert s init) j := by
  intro j
  induction j with
  | zero => rfl
  | succ j ih =>
      show insert s (bwdIter G s init j ∪ (insert s (bwdIter G s init j)).biUnion _) = _
      rw [← Finset.insert_union]
      have hcong : (insert s (bwdIter G s init j)).biUnion
          (fun n => if G.hasNode n then preds G n else ∅) =
          (insert s (bwdIter G s init j)).biUnion (preds G) := by
        refine Finset.biUnion_congr rfl ?_
        intro a ha
        rcases Finset.mem_insert.mp ha with rfl | ha2
        · rw [if_pos hs]
        · rw [if_pos (bwdIter_hasNode hwf hinit j a ha2)]
      rw [hcong, ih]
      show bwdBall G (insert s init) j ∪ (bwdBall G (insert s init) j).biUnion (preds G) =
        bwdBall G (insert s init) (j + 1)
      rfl

theorem seedNeighbors_insert {G : Graph} {s : String} {k : Nat} (hwf : EdgesWF G)
    (hs : G.hasNode s = true) :
    insert s (seedNeighbors G k s) = bwdBall G (fwdBall G s k) k := by
  unfold seedNeighbors
  rw [bwdIter_insert hwf hs (fun v hv => fwdIter_hasNode hwf k v hv) k,
    fwdIter_insert hwf hs k]

theorem mem_selectNodes_seeds {G : Graph} {fids : List String} {k : Nat} {v : String}
    (hf : fids ≠ []) (hk : 0 < k) :
    v ∈ selectNodes G [] fids k ↔
      ∃ s, s ∈ fids ∧ G.hasNode s = true ∧ (v = s ∨ v ∈ seedNeighbors G k s) := by
  unfold selectNodes
  rw [if_neg (fun h => hf h.2)]
  simp only [hf, hk, if_true, if_pos, ne_eq, not_true_eq_false, not_false_eq_true,
    if_neg, Finset.union_empty]
  simp only [Finset.mem_union, Finset.mem_biUnion, List.mem_toFinset, List.mem_filter]
  constructor
  · rintro (⟨h1, h2⟩ | ⟨s, ⟨h1, h2⟩, hv⟩)
    · exact ⟨v, h1, h2, Or.inl rfl⟩
    · exact ⟨s, h1, h2, Or.inr hv⟩
  · rintro ⟨s, hs1, hs2, rfl | hv⟩
    · exact Or.inl ⟨hs1, hs2⟩
    · exact Or.inr ⟨s, ⟨hs1, hs2⟩, hv⟩


theorem fwdIter_subset_succ {G : Graph} {s : String} (i : Nat) :
    fwdIter G s i ⊆ fwdIter G s (i + 1) := by
  show fwdIter G s i ⊆ fwdIter G s i ∪ _
  exact Finset.subset_union_left

theorem bwdIter_subset_succ {G : Graph} {s : String} {init : Finset String} (j : Nat) :
    bwdIter G s init j ⊆ bwdIter G s init (j + 1) := by
  show bwdIter G s init j ⊆ bwdIter G s init j ∪ _
  exact Finset.subset_union_left

theorem fwdIter_mono {G : Graph} {s : String} {i j : Nat} (h : i ≤ j) :
    fwdIter G s i ⊆ fwdIter G s j := by
  induction h with
  | refl => exact Finset.Subset.refl _
  | step h2 ih => exact ih.trans (fwdIter_subset_succ _)

theorem bwdIter_mono_rounds {G : Graph} {s : String} {init : Finset String} {i j : Nat}
    (h : i ≤ j) : bwdIter G s init i ⊆ bwdIter G s init j := by
  induction h with
  | refl => exact Finset.Subset.refl _
  | step h2 ih => exact ih.trans (bwdIter_subset_succ _)

theorem bwdIter_mono_init {G : Graph} {s : String} {X Y : Finset String} (h : X ⊆ Y) :
    ∀ (j : Nat), bwdIter G s X j ⊆ bwdIter G s Y j := by
  intro j
  induction j with
  | zero => exact h
  | succ j ih =>
      show bwdIter G s X j ∪ _ ⊆ bwdIter G s Y j ∪ _
      refine Finset.union_subset_union ih ?_
      refine Finset.biUnion_subset_biUnion_of_subset_left _ ?_
      exact Finset.insert_subset_insert _ ih

theorem seedNeighbors_mono {G : Graph} {s : String} {k1 k2 : Nat} (h : k1 ≤ k2) :
    seedNeighbors G k1 s ⊆ seedNeighbors G k2 s := by
  unfold seedNeighbors
  exact (bwdIter_mono_init (fwdIter_mono h) k1).trans (bwdIter_mono_rounds h)

theorem mem_selectNodes_seeds0 {G : Graph} {fids : List String} {v : String}
    (hf : fids ≠ []) :
    v ∈ selectNodes G [] fids 0 ↔ v ∈ fids ∧ G.hasNode v = true := by
  unfold selectNodes
  rw [if_neg (fun hh => hf hh.2)]
  simp only [hf, if_pos, ne_eq, not_true_eq_false, not_false_eq_true, if_neg,
    Finset.union_empty, Nat.lt_irrefl, List.mem_toFinset, List.mem_filter]

theorem selectNodes_mono_k {G : Graph} {fids : List String} {k1 k2 : Nat} (h : k1 ≤ k2) :
    selectNodes G [] fids k1 ⊆ selectNodes G [] fids k2 := by
  by_cases hf : fids = []
  · subst hf
    exact Finset.Subset.refl _
  · intro v hv
    by_cases h1 : 0 < k1
    · have h2 : 0 < k2 := Nat.lt_of_lt_of_le h1 h
      obtain ⟨s, hs1, hs2, hd⟩ := (mem_selectNodes_seeds hf h1).mp hv
      refine (mem_selectNodes_seeds hf h2).mpr ⟨s, hs1, hs2, ?_⟩
      rcases hd with rfl | hd
      · exact Or.inl rfl
      · exact Or.inr (seedNeighbors_mono h hd)
    · have h1z : k1 = 0 := Nat.eq_zero_of_not_pos h1
      subst h1z
      have hv0 := (mem_selectNodes_seeds0 hf).mp hv
      by_cases h2 : 0 < k2
      · exact (mem_selectNodes_seeds hf h2).mpr ⟨v, hv0.1, hv0.2, Or.inl rfl⟩
      · have h2z : k2 = 0 := Nat.eq_zero_of_not_pos h2
        subst h2z
        exact hv

theorem select_nodeIds_mem {G : Graph} {ft fids fr : List String} {k : Nat} {v : String}
    (hne : ¬(ft = [] ∧ fids = [] ∧ fr = [])) :
    v ∈ (select G ft fids fr k).nodeIds ↔
      (∃ d, (v, d) ∈ G.nodes) ∧ v ∈ selectNodes G ft fids k := by
  unfold select
  rw [if_neg hne]
  simp only [Graph.nodeIds, List.mem_map, List.mem_filter]
  constructor
  · rintro ⟨p, ⟨hp, hd⟩, rfl⟩
    exact ⟨⟨p.2, by simpa using hp⟩, by simpa using hd⟩
  · rintro ⟨⟨d, hd⟩, hv⟩
    exact ⟨(v, d), ⟨hd, by simpa using hv⟩, rfl⟩

theorem select_edges_mem {G : Graph} {ft fids fr : List String} {k : Nat}
    {e : (String × String) × EdgeAttrs}
    (hne : ¬(ft = [] ∧ fids = [] ∧ fr = [])) :
    e ∈ (select G ft fids fr k).edges ↔
      e ∈ G.edges ∧ e.1.1 ∈ selectNodes G ft fids k ∧ e.1.2 ∈ selectNodes G ft fids k ∧
        (fr = [] ∨ e.2.relation ∈ fr) := by
  unfold select
  rw [if_neg hne]
  simp only [List.mem_filter, Bool.and_eq_true, Bool.or_eq_true, decide_eq_true_eq]
  tauto

theorem mem_typedNodes {G : Graph} {ft : List String} {v : String} :
    v ∈ typedNodes G ft ↔ ∃ d, (v, d) ∈ G.nodes ∧ d.type ∈ ft := by
  unfold typedNodes
  rw [List.mem_toFinset, List.mem_filterMap]
  constructor
  · rintro ⟨p, hp, hif⟩
    by_cases h1 : p.2.type ∈ ft
    · rw [if_pos h1] at hif
      have h2 : p.1 = v := by simpa using hif
      refine ⟨p.2, ?_, h1⟩
      rw [← h2]
      simpa using hp
    · rw [if_neg h1] at hif
      cases hif
  · rintro ⟨d, hd, ht⟩
    exact ⟨(v, d), hd, by simp [ht]⟩

theorem selectNodes_typed_only {G : Graph} {ft : List String} {k : Nat} {v : String}
    (hft : ft ≠ []) :
    v ∈ selectNodes G ft [] k ↔ v ∈ typedNodes G ft := by
  unfold selectNodes
  rw [if_neg (fun h => hft h.1)]
  simp [hft]

theorem selectNodes_all (G : Graph) (k : Nat) :
    selectNodes G [] [] k = (G.nodes.map Prod.fst).toFinset := by
  unfold selectNodes
  rw [if_pos ⟨rfl, rfl⟩]

/-! ### Shared helpers for the claim theorems -/

theorem build_contains_edge {m : ParsedModel} {cid : String} {c : Concept} {nid : String}
    {pre post : List String}
    (hnd : (m.concepts.map Prod.fst).Nodup)
    (hlp : ∀ q ∈ m.learning_paths, q.1 ≠ cid)
    (hc : alookup cid m.concepts = some c)
    (hseq : c.sequence = some (pre ++ nid :: post))
    (hpost : nid ∉ post)
    (hnode : (build m).hasNode nid = true) :
    ∃ a, alookup (cid, nid) (build m).edges = some a ∧
      a.relation = "CONTAINS" ∧ a.seq = some (pre.length + 1) := by
  have hmemc : (cid, c) ∈ m.concepts := alookup_mem hc
  have hlp2 : cid ∉ m.learning_paths.map Prod.fst := by
    intro hm
    obtain ⟨x, hx⟩ := mem_keys.mp hm
    exact hlp (cid, x) hx rfl
  obtain ⟨a, ha, h1, h2⟩ :=
    containsEdges_lookup ((build m).hasNode) hseq hpost hnode m.concepts
      (relEdges ((build m).hasNode) m.relationships []) hnd hmemc
  have he := @includesEdges_lookup_other ((build m).hasNode) cid nid m.learning_paths
    (containsEdges ((build m).hasNode) m.concepts
      (relEdges ((build m).hasNode) m.relationships [])) hlp2
  exact ⟨a, he.trans ha, h1, h2⟩

theorem build_includes_edge {m : ParsedModel} {pid : String} {lp : LearningPath}
    {cid : String} {pre post : List String}
    (hnd : (m.learning_paths.map Prod.fst).Nodup)
    (hl : alookup pid m.learning_paths = some lp)
    (hseq : lp.conceptSequence = some (pre ++ cid :: post))
    (hpost : cid ∉ post)
    (hnode : (build m).hasNode cid = true) :
    ∃ a, alookup (pid, cid) (build m).edges = some a ∧
      a.relation = "INCLUDES" ∧ a.seq = some (pre.length + 1) := by
  have hmem : (pid, lp) ∈ m.learning_paths := alookup_mem hl
  exact includesEdges_lookup ((build m).hasNode) hseq hpost hnode m.learning_paths
    (containsEdges ((build m).hasNode) m.concepts
      (relEdges ((build m).hasNode) m.relationships [])) hnd hmem

theorem count_map_fst {l : List (String × Nat)} {a : String} :
    (l.map Prod.fst).count a = l.countP fun p => decide (p.1 = a) := by
  induction l with
  | nil => rfl
  | cons p ps ih =>
      rw [List.map_cons, List.count_cons, List.countP_cons, ih]
      by_cases hp : p.1 = a <;> simp [hp]

theorem two_le_countP {α : Type} {p : α → Bool} {l : List α} {x y : α}
    (hx : x ∈ l) (hy : y ∈ l) (hxy : x ≠ y) (hpx : p x = true) (hpy : p y = true) :
    2 ≤ l.countP p := by
  obtain ⟨l1, l2, rfl⟩ := List.append_of_mem hx
  rw [List.countP_append, List.countP_cons, hpx, if_pos rfl]
  have hy2 : y ∈ l1 ∨ y ∈ l2 := by
    rcases List.mem_append.mp hy with h | h
    · exact Or.inl h
    · rcases List.mem_cons.mp h with h | h
      · exact absurd h.symm hxy
      · exact Or.inr h
  rcases hy2 with h | h
  · have := List.countP_pos.mpr ⟨y, h, hpy⟩
    omega
  · have := List.countP_pos.mpr ⟨y, h, hpy⟩
    omega

theorem exists_last_split {α : Type} [DecidableEq α] {a : α} {l : List α} (h : a ∈ l) :
    ∃ pre post, l = pre ++ a :: post ∧ a ∉ post := by
  induction l with
  | nil => cases h
  | cons x xs ih =>
      by_cases hx : a ∈ xs
      · obtain ⟨pre, post, heq, hpost⟩ := ih hx
        exact ⟨x :: pre, post, by rw [List.cons_append, heq], hpost⟩
      · rcases List.mem_cons.mp h with rfl | h2
        · exact ⟨[], xs, rfl, hx⟩
        · exact absurd h2 hx

theorem filter_key_nodup {κ α : Type} [DecidableEq κ] {l : List (κ × α)} {key : κ} {a : α}
    (hnd : (l.map Prod.fst).Nodup) (hmem : (key, a) ∈ l) :
    (l.filter fun e => decide (e.1 = key)).length = 1 := by
  induction l with
  | nil => cases hmem
  | cons p ps ih =>
      rw [List.map_cons, List.nodup_cons] at hnd
      rcases List.mem_cons.mp hmem with heq | hmem2
      · have hp : p.1 = key := (congrArg Prod.fst heq).symm
        have hrest : ps.filter (fun e => decide (e.1 = key)) = [] := by
          rw [List.filter_eq_nil]
          intro q hq
          simp only [decide_eq_true_eq]
          intro hq1
          refine hnd.1 ?_
          rw [hp, ← hq1]
          exact List.mem_map.mpr ⟨q, hq, rfl⟩
        simp [List.filter_cons, hp, hrest]
      · have hp : p.1 ≠ key := by
          intro he
          exact hnd.1 (he ▸ mem_keys.mpr ⟨a, hmem2⟩)
        simp [List.filter_cons, hp, ih hnd.2 hmem2]

instance : ∀ s : Stmt, Decidable (StmtWF s)
  | .createNode _ _ _ _ m _ _ => inferInstanceAs (Decidable (isDigitStr m = true))
  | .createConcept _ _ _ m => inferInstanceAs (Decidable (isDigitStr m = true))
  | .createPath _ _ _ _ _ m => inferInstanceAs (Decidable (isDigitStr m = true))
  | .relStmt _ _ _ st _ => inferInstanceAs (Decidable (isDigitStr st = true))
  | .containsStmt _ _ sq => inferInstanceAs (Decidable (isDigitStr sq = true))
  | .includesStmt _ _ sq => inferInstanceAs (Decidable (isDigitStr sq = true))
  | .prereqStmt _ _ => inferInstanceAs (Decidable True)
  | .other _ => inferInstanceAs (Decidable True)

/-! ### Concrete inputs for the counterexamples and witnesses -/

/-- A placeholder entity record for hand-built graphs. -/
def dummyNode : KnowledgeNode := ⟨"", "", "", "", 0, "", ""⟩

def nd0 : NodeData := ⟨"KnowledgeNode", "x", .unit dummyNode⟩

def ea0 : EdgeAttrs := ⟨"LEADS_TO", none, none, none⟩

/-- Edges n2→n1 and n2→n3: from seed n1, node n3 is at undirected
distance 2 but can only be reached backward-then-forward. -/
def Gc1 : Graph :=
  { nodes := [("n1", nd0), ("n2", nd0), ("n3", nd0)]
    edges := [(("n2", "n1"), ea0), (("n2", "n3"), ea0)] }

/-- Edges n1→n2 and n3→n2: from seed n1 with one hop, node n3 (undirected
distance 2) is selected because the predecessor rounds run over the set
already grown by the successor rounds. -/
def Gc1b : Graph :=
  { nodes := [("n1", nd0), ("n2", nd0), ("n3", nd0)]
    edges := [(("n1", "n2"), ea0), (("n3", "n2"), ea0)] }

/-- A two-node graph with the single edge n1→n2. -/
def Gw : Graph :=
  { nodes := [("n1", nd0), ("n2", nd0)]
    edges := [(("n1", "n2"), ea0)] }

/-- One concept creation and no CONTAINS statement. -/
def sC3 : List Stmt := [.createConcept "CONCEPT-1" "c" "d" "5"]

def emptyModel : ParsedModel := ⟨[], [], [], []⟩

def emptyConcept : Concept := ⟨"", "", "", 0, [], none⟩

def mC3 : ParsedModel := (parse sC3).getD emptyModel

def cC3 : Concept := (alookup "CONCEPT-1" mC3.concepts).getD emptyConcept

/-- The spec's sequence-derivation example: CONCEPT-1 contains N3
(sequence 2), N1 (sequence 0), N2 (sequence 1), in that statement
order. -/
def sC4 : List Stmt :=
  [ .createConcept "CONCEPT-1" "Concept one" "d" "5",
    .createNode "N1" "t1" "d1" "Beginner" "3" "L1" "T1",
    .createNode "N2" "t2" "d2" "Beginner" "3" "L1" "T1",
    .createNode "N3" "t3" "d3" "Beginner" "3" "L1" "T1",
    .containsStmt "CONCEPT-1" "N3" "2",
    .containsStmt "CONCEPT-1" "N1" "0",
    .containsStmt "CONCEPT-1" "N2" "1" ]

def mC4 : ParsedModel := (parse sC4).getD emptyModel

def cC4 : Concept := (alookup "CONCEPT-1" mC4.concepts).getD emptyConcept

/-- Two relationships of different kinds between the same ordered pair. -/
def mC2 : ParsedModel :=
  { knowledge_nodes :=
      [("N1", ⟨"N1", "t1", "d1", "Beginner", 1, "L", "T"⟩),
       ("N2", ⟨"N2", "t2", "d2", "Beginner", 1, "L", "T"⟩)]
    concepts := []
    learning_paths := []
    relationships :=
      [⟨"N1", "N2", "LEADS_TO", 3, "j1"⟩, ⟨"N1", "N2", "REQUIRES", 5, "j2"⟩] }

/-- A relationship whose target N9 was never created. -/
def mC5 : ParsedModel :=
  { knowledge_nodes := [("N1", ⟨"N1", "t1", "d1", "Beginner", 1, "L", "T"⟩)]
    concepts := []
    learning_paths := []
    relationships := [⟨"N1", "N9", "LEADS_TO", 3, "j"⟩] }

/-- Two CONTAINS statements for the pair (CONCEPT-1, N1) with distinct
declared sequence numbers 0 and 2. -/
def sC9 : List Stmt :=
  [ .createConcept "CONCEPT-1" "c" "d" "5",
    .createNode "N1" "t1" "d1" "Beginner" "3" "L1" "T1",
    .createNode "N2" "t2" "d2" "Beginner" "3" "L1" "T1",
    .containsStmt "CONCEPT-1" "N1" "0",
    .containsStmt "CONCEPT-1" "N2" "1",
    .containsStmt "CONCEPT-1" "N1" "2" ]

def mC9 : ParsedModel := (parse sC9).getD emptyModel

def cC9 : Concept := (alookup "CONCEPT-1" mC9.concepts).getD emptyConcept

def cC10 : Concept :=
  ⟨"CONCEPT-1", "c", "d", 5, ["N1", "N2", "N3"], some ["N1", "N2", "N3"]⟩

/-- A model whose concept sequence references N2 although N2 was never
created: the surviving CONTAINS edges carry positions 1 and 3. -/
def mC10 : ParsedModel :=
  { knowledge_nodes :=
      [("N1", ⟨"N1", "t1", "d1", "Beginner", 1, "L", "T"⟩),
       ("N3", ⟨"N3", "t3", "d3", "Beginner", 1, "L", "T"⟩)]
    concepts := [("CONCEPT-1", cC10)]
    learning_paths := []
    relationships := [] }

/-! ### Claim C1 -/

/-- C1 counterexample: the claim that the selected node set equals the set
of nodes within `hop_radius` undirected hops of the seeds fails in both
directions.  In `Gc1` (edges n2→n1, n2→n3) with seed n1 and radius 2, node
n3 is within undirected distance 2 but is not selected; in `Gc1b` (edges
n1→n2, n3→n2) with seed n1 and radius 1, node n3 is at undirected
distance 2 but is selected. -/
theorem c1_counterexample :
    ¬((select Gc1 [] ["n1"] [] 2).nodeIds.toFinset = uball Gc1 {"n1"} 2) ∧
    ¬((select Gc1b [] ["n1"] [] 1).nodeIds.toFinset = uball Gc1b {"n1"} 1) := by
  decide

/-- C1 (amended): with seeds and a positive hop radius and no type filter,
a node `v` is selected iff for some seed `s` present in the graph there is
a node `w` reachable from `s` by at most `k` forward (successor) hops and
reachable from `v` by at most `k` forward hops — i.e. the expansion
explores at most `k` successor steps followed by at most `k` predecessor
steps, not arbitrary alternations of directions. -/
theorem c1_selected_iff (G : Graph) (hwf : EdgesWF G) (fids fr : List String) (k : Nat)
    (hf : fids ≠ []) (hk : 0 < k) (v : String) :
    v ∈ (select G [] fids fr k).nodeIds ↔
      ∃ s, s ∈ fids ∧ G.hasNode s = true ∧
        ∃ w i1 i2, i1 ≤ k ∧ i2 ≤ k ∧ pathN G i1 s w ∧ pathN G i2 v w := by
  have hne : ¬(([] : List String) = [] ∧ fids = [] ∧ fr = []) := fun hh => hf hh.2.1
  rw [select_nodeIds_mem hne]
  constructor
  · rintro ⟨⟨d, hd⟩, hv⟩
    obtain ⟨s, hs1, hs2, hd2⟩ := (mem_selectNodes_seeds hf hk).mp hv
    have hv2 : v ∈ insert s (seedNeighbors G k s) := by
      rcases hd2 with rfl | h
      · exact Finset.mem_insert_self _ _
      · exact Finset.mem_insert_of_mem h
    rw [seedNeighbors_insert hwf hs2] at hv2
    obtain ⟨w, hw, i2, hi2, hp2⟩ := mem_bwdBall.mp hv2
    obtain ⟨i1, hi1, hp1⟩ := mem_fwdBall.mp hw
    exact ⟨s, hs1, hs2, w, i1, i2, hi1, hi2, hp1, hp2⟩
  · rintro ⟨s, hs1, hs2, w, i1, i2, hi1, hi2, hp1, hp2⟩
    have hvnode : ∃ d, (v, d) ∈ G.nodes := by
      cases i2 with
      | zero =>
          have hvw : v = w := hp2
          subst hvw
          rcases Nat.eq_zero_or_pos i1 with h0 | hposi
          · subst h0
            have hsv : s = v := hp1
            exact hsv ▸ hasNode_iff.mp hs2
          · obtain ⟨i1p, rfl⟩ : ∃ j, i1 = j + 1 := ⟨i1 - 1, by omega⟩
            obtain ⟨u, hu, he⟩ := pathN_succ_right.mp hp1
            obtain ⟨a, ha⟩ := he
            exact hasNode_iff.mp (hwf _ ha).2
      | succ i2p =>
          obtain ⟨u, he, hrest⟩ := hp2
          obtain ⟨a, ha⟩ := he
          exact hasNode_iff.mp (hwf _ ha).1
    refine ⟨hvnode, (mem_selectNodes_seeds hf hk).mpr ⟨s, hs1, hs2, ?_⟩⟩
    have hv2 : v ∈ insert s (seedNeighbors G k s) := by
      rw [seedNeighbors_insert hwf hs2]
      exact mem_bwdBall.mpr ⟨w, mem_fwdBall.mpr ⟨i1, hi1, hp1⟩, i2, hi2, hp2⟩
    rcases Finset.mem_insert.mp hv2 with rfl | h
    · exact Or.inl rfl
    · exact Or.inr h

/-- C1 witness: in `Gw` (edge n1→n2), seed n1 with hop radius 1 selects
n2. -/
theorem c1_witness : "n2" ∈ (select Gw [] ["n1"] [] 1).nodeIds := by
  refine (c1_selected_iff Gw (by unfold EdgesWF; decide) ["n1"] [] 1 (by decide) (by decide)
    "n2").mpr ?_
  refine ⟨"n1", by decide, by decide, "n2", 1, 0, by decide, by decide, ?_, rfl⟩
  exact ⟨"n2", ⟨ea0, by decide⟩, rfl⟩

/-! ### Claim C2 -/

/-- C2 counterexample: `mC2` holds a LEADS_TO and a REQUIRES relationship
between the same ordered pair (N1, N2), but the built graph has a single
edge whose relation is REQUIRES — the two kinds do not coexist as distinct
edges. -/
theorem c2_counterexample :
    mC2.relationships.map Relationship.type = ["LEADS_TO", "REQUIRES"] ∧
    (build mC2).edges.map (fun e => (e.1.1, e.1.2, e.2.relation)) =
      [("N1", "N2", "REQUIRES")] := by
  exact ⟨rfl, rfl⟩

/-- C2 (amended): the store keys edges by the ordered (source, target)
pair only, so the built graph has at most one edge per ordered pair; a
later relationship between an already-linked pair overwrites the edge's
relation kind and attributes instead of coexisting with it. -/
theorem c2_edge_pair_unique (m : ParsedModel) :
    ((build m).edges.map Prod.fst).Nodup :=
  build_edges_keys_nodup m

/-! ### Claim C3 -/

/-- C3 counterexample: parsing a script with one concept and no CONTAINS
statement yields a concept whose `sequence` key is absent (`none`), not a
well-defined empty list (`some []`). -/
theorem c3_counterexample :
    (parse sC3).map (fun m => (alookup "CONCEPT-1" m.concepts).map Concept.sequence) =
      some (some none) ∧
    (some (some (none : Option (List String))) ≠
      some (some (some ([] : List String)))) := by
  exact ⟨by decide, by decide⟩

/-- C3 (amended): a parsed concept for which no concept-contains-unit
statement was recognized has NO `sequence` key at all (modelled as
`none`), while its `nodes` membership list is a well-defined empty
list. -/
theorem c3_no_containment (script : List Stmt) (m : ParsedModel) (cid : String)
    (c : Concept)
    (hp : parse script = some m)
    (hno : ∀ s ∈ script, isContainsFor cid s = false)
    (hc : alookup cid m.concepts = some c) :
    c.sequence = none ∧ c.nodes = [] :=
  parse_concept_no_containment hp hno hc

/-- C3 witness: the amended claim evaluated on the one-concept script. -/
theorem c3_witness : cC3.sequence = none ∧ cC3.nodes = [] :=
  c3_no_containment sC3 mC3 "CONCEPT-1" cC3 (by decide) (by decide) (by decide)

/-! ### Claim C4 -/

/-- C4: for a concept with recorded containment, the derived sequence is
the member-id list of the CONTAINS pairs sorted ascending by declared
sequence number by a stable sort (sorted keys, equal-key order preserved,
a permutation of the statement order); the CONTAINS edges added by the
builder carry 1-based positions equal to the member's rank in that order;
and on the spec's CONCEPT-1/N3,N1,N2 example the sequence is
[N1, N2, N3] with edge positions 1, 2, 3. -/
theorem c4_sequence_sorted_positions :
    (∀ (script : List Stmt) (m : ParsedModel) (cid : String) (c : Concept)
        (pairs : List (String × Nat)),
      parse script = some m → alookup cid m.concepts = some c →
      containsPairs cid script = some pairs → pairs ≠ [] →
      c.sequence = some ((sortBySeq pairs).map Prod.fst) ∧
        (sortBySeq pairs).Pairwise (fun a b => a.2 ≤ b.2) ∧
        (sortBySeq pairs).Perm pairs ∧
        (∀ sq, (sortBySeq pairs).filter (fun p => decide (p.2 = sq)) =
          pairs.filter (fun p => decide (p.2 = sq))))
    ∧ (∀ (m : ParsedModel) (cid nid : String) (c : Concept) (pre post : List String),
        (m.concepts.map Prod.fst).Nodup →
        (∀ q ∈ m.learning_paths, q.1 ≠ cid) →
        alookup cid m.concepts = some c →
        c.sequence = some (pre ++ nid :: post) → nid ∉ post →
        (build m).hasNode nid = true →
        ∃ a, alookup (cid, nid) (build m).edges = some a ∧
          a.relation = "CONTAINS" ∧ a.seq = some (pre.length + 1))
    ∧ (cC4.sequence = some ["N1", "N2", "N3"] ∧
        (build mC4).edges.map (fun e => (e.1.1, e.1.2, e.2.relation, e.2.seq)) =
          [("CONCEPT-1", "N1", "CONTAINS", some 1),
           ("CONCEPT-1", "N2", "CONTAINS", some 2),
           ("CONCEPT-1", "N3", "CONTAINS", some 3)]) := by
  refine ⟨?_, ?_, by decide, by decide⟩
  · intro script m cid c pairs hp hc hpairs hne
    exact ⟨parse_concept_sequence hp hc hpairs hne, sortBySeq_pairwise pairs,
      sortBySeq_perm pairs, fun sq => sortBySeq_filter pairs sq⟩
  · intro m cid nid c pre post hnd hlp hc hs hpost hn
    exact build_contains_edge hnd hlp hc hs hpost hn

/-- C4 witness: the sequence-derivation clause evaluated on the example
script. -/
theorem c4_witness :
    cC4.sequence = some ((sortBySeq [("N3", 2), ("N1", 0), ("N2", 1)]).map Prod.fst) :=
  (c4_sequence_sorted_positions.1 sC4 mC4 "CONCEPT-1" cC4 [("N3", 2), ("N1", 0), ("N2", 1)]
    (by decide) (by decide) (by decide) (by decide)).1

/-! ### Claim C5 -/

/-- C5: a relationship with a missing endpoint contributes no edge (the
built graph is unchanged when it is removed from the relationship list)
and no error is possible (`build` is total); the relationship still
appears in the parsed model's raw relationship list; and every edge of a
built graph has both endpoints present as nodes. -/
theorem c5_dangling_dropped :
    (∀ (m : ParsedModel) (l1 l2 : List Relationship) (r : Relationship),
        m.relationships = l1 ++ r :: l2 →
        ((build m).hasNode r.source = false ∨ (build m).hasNode r.target = false) →
        build m = build { m with relationships := l1 ++ l2 })
    ∧ (∀ (script : List Stmt) (m : ParsedModel) (src tgt ty st j : String),
        parse script = some m → Stmt.relStmt src tgt ty st j ∈ script →
        ∃ stn, strToNat? st = some stn ∧
          (⟨src, tgt, ty, stn, j⟩ : Relationship) ∈ m.relationships)
    ∧ (∀ (m : ParsedModel) (e : (String × String) × EdgeAttrs), e ∈ (build m).edges →
        (build m).hasNode e.1.1 = true ∧ (build m).hasNode e.1.2 = true) := by
  refine ⟨?_, ?_, ?_⟩
  · intro m l1 l2 r hrel hmiss
    have hedg : relEdges ((build m).hasNode) (l1 ++ r :: l2) [] =
        relEdges ((build m).hasNode) (l1 ++ l2) [] := by
      unfold relEdges
      refine foldl_skip _ r ?_ l1 l2 []
      intro b
      rcases hmiss with h | h <;> simp [h]
    calc build m
        = { nodes := buildNodes m
            edges := includesEdges ((build m).hasNode) m.learning_paths
              (containsEdges ((build m).hasNode) m.concepts
                (relEdges ((build m).hasNode) (l1 ++ r :: l2) [])) } := by
          rw [← hrel]
          rfl
      _ = { nodes := buildNodes m
            edges := includesEdges ((build m).hasNode) m.learning_paths
              (containsEdges ((build m).hasNode) m.concepts
                (relEdges ((build m).hasNode) (l1 ++ l2) [])) } := by
          rw [hedg]
      _ = build { m with relationships := l1 ++ l2 } := rfl
  · intro script m src tgt ty st j hp hmem
    exact parse_rel_mem hp hmem
  · intro m e he
    exact build_edges_endpoints m e he

/-- C5 witness: the dangling relationship N1→N9 of `mC5` contributes no
edge. -/
theorem c5_witness : build mC5 = build { mC5 with relationships := [] ++ [] } :=
  c5_dangling_dropped.1 mC5 [] [] ⟨"N1", "N9", "LEADS_TO", 3, "j"⟩ (by decide)
    (Or.inr (by decide))

/-! ### Claim C6 -/

/-- C6: growing the hop radius can only grow the selected node set — for
`0 ≤ r1 ≤ r2` every node selected with seeds `S` and radius `r1` is also
selected with radius `r2`. -/
theorem c6_hop_monotone (G : Graph) (S : List String) (r1 r2 : Nat) (h : r1 ≤ r2) :
    ∀ v ∈ (select G [] S [] r1).nodeIds, v ∈ (select G [] S [] r2).nodeIds := by
  intro v hv
  by_cases hS : S = []
  · subst hS
    exact hv
  · have hne : ¬(([] : List String) = [] ∧ S = [] ∧ ([] : List String) = []) :=
      fun hh => hS hh.2.1
    rw [select_nodeIds_mem hne] at hv ⊢
    exact ⟨hv.1, selectNodes_mono_k h hv.2⟩

/-- C6 witness: monotonicity applied at radius 1 ≤ 2 on `Gw`. -/
theorem c6_witness : "n2" ∈ (select Gw [] ["n1"] [] 2).nodeIds :=
  c6_hop_monotone Gw ["n1"] 1 2 (by decide) "n2" (by decide)

/-! ### Claim C7 -/

/-- C7: a pure KnowledgeNode type filter selects exactly the
KnowledgeNode-kind nodes and exactly the induced edges among them; and in
general an edge of the selected subgraph is kept iff both endpoints are
selected and the relation filter is absent or contains the edge's
relation. -/
theorem c7_type_filter_induced (G : Graph) (hwf : EdgesWF G) :
    (∀ v, v ∈ (select G ["KnowledgeNode"] [] [] 0).nodeIds ↔
        ∃ d, (v, d) ∈ G.nodes ∧ d.type = "KnowledgeNode")
    ∧ (∀ e, e ∈ (select G ["KnowledgeNode"] [] [] 0).edges ↔
        e ∈ G.edges ∧
          (∃ d, (e.1.1, d) ∈ G.nodes ∧ d.type = "KnowledgeNode") ∧
          (∃ d, (e.1.2, d) ∈ G.nodes ∧ d.type = "KnowledgeNode"))
    ∧ (∀ (ft fids fr : List String) (k : Nat) (e : (String × String) × EdgeAttrs),
        e ∈ (select G ft fids fr k).edges ↔
          e ∈ G.edges ∧ e.1.1 ∈ (select G ft fids fr k).nodeIds ∧
            e.1.2 ∈ (select G ft fids fr k).nodeIds ∧
            (fr = [] ∨ e.2.relation ∈ fr)) := by
  have hne : ¬((["KnowledgeNode"] : List String) = [] ∧ ([] : List String) = [] ∧
      ([] : List String) = []) := fun hh => List.cons_ne_nil _ _ hh.1
  have htyped : ∀ v, v ∈ selectNodes G ["KnowledgeNode"] [] 0 ↔
      ∃ d, (v, d) ∈ G.nodes ∧ d.type = "KnowledgeNode" := by
    intro v
    rw [selectNodes_typed_only (List.cons_ne_nil _ _), mem_typedNodes]
    constructor
    · rintro ⟨d, hd, ht⟩
      exact ⟨d, hd, by simpa using ht⟩
    · rintro ⟨d, hd, ht⟩
      exact ⟨d, hd, by simp [ht]⟩
  refine ⟨?_, ?_, ?_⟩
  · intro v
    rw [select_nodeIds_mem hne, htyped v]
    constructor
    · rintro ⟨_, h⟩
      exact h
    · rintro ⟨d, hd, ht⟩
      exact ⟨⟨d, hd⟩, d, hd, ht⟩
  · intro e
    rw [select_edges_mem hne, htyped e.1.1, htyped e.1.2]
    constructor
    · rintro ⟨he, h1, h2, _⟩
      exact ⟨he, h1, h2⟩
    · rintro ⟨he, h1, h2⟩
      exact ⟨he, h1, h2, Or.inl rfl⟩
  · intro ft fids fr k e
    by_cases hall : ft = [] ∧ fids = [] ∧ fr = []
    · obtain ⟨rfl, rfl, rfl⟩ := hall
      have hsel : select G [] [] [] k = G := by
        unfold select
        rw [if_pos ⟨rfl, rfl, rfl⟩]
      rw [hsel]
      constructor
      · intro he
        refine ⟨he, ?_, ?_, Or.inl rfl⟩
        · exact hasNode_iff_mem_nodeIds.mp (hwf e he).1
        · exact hasNode_iff_mem_nodeIds.mp (hwf e he).2
      · rintro ⟨he, _, _, _⟩
        exact he
    · rw [select_edges_mem hall]
      constructor
      · rintro ⟨he, h1, h2, h3⟩
        refine ⟨he, ?_, ?_, h3⟩
        · exact (select_nodeIds_mem hall).mpr ⟨hasNode_iff.mp (hwf e he).1, h1⟩
        · exact (select_nodeIds_mem hall).mpr ⟨hasNode_iff.mp (hwf e he).2, h2⟩
      · rintro ⟨he, h1, h2, h3⟩
        exact ⟨he, ((select_nodeIds_mem hall).mp h1).2,
          ((select_nodeIds_mem hall).mp h2).2, h3⟩

/-- C7 witness: the type-filter clause evaluated on `Gw`. -/
theorem c7_witness : "n1" ∈ (select Gw ["KnowledgeNode"] [] [] 0).nodeIds :=
  ((c7_type_filter_induced Gw (by unfold EdgesWF; decide)).1 "n1").mpr
    ⟨nd0, by decide, rfl⟩

/-! ### Claim C8 -/

/-- C8: under the regex guarantee that every numeric capture is a nonempty
digit string, parsing always succeeds (no conversion can fail, no parse
error is raised); and a statement matching none of the recognized shapes
contributes nothing — inserting it anywhere leaves the parse result
unchanged. -/
theorem c8_parse_total_permissive (script l1 l2 : List Stmt) (t : String)
    (hwf : ∀ s ∈ script, StmtWF s) :
    (parse script).isSome = true ∧
      parse (l1 ++ Stmt.other t :: l2) = parse (l1 ++ l2) :=
  ⟨parse_isSome hwf, parse_skip_other l1 l2 t⟩

/-- C8 witness: totality on the example script and permissiveness for an
unrecognized statement. -/
theorem c8_witness :
    (parse sC4).isSome = true ∧
      parse ([] ++ Stmt.other "CREATE INDEX ON :KnowledgeNode(id);" :: sC3) =
        parse ([] ++ sC3) :=
  c8_parse_total_permissive sC4 [] sC3 "CREATE INDEX ON :KnowledgeNode(id);" (by decide)

/-! ### Claim C9 -/

/-- C9: when the script has two CONTAINS statements for the same
(concept, unit) pair with distinct declared sequence numbers, the derived
sequence lists the unit id more than once, while the built graph has a
single CONTAINS edge for the pair whose position is the 1-based rank of
the LAST occurrence of that id in the derived sequence. -/
theorem c9_duplicate_contains (script : List Stmt) (m : ParsedModel) (cid nid : String)
    (c : Concept) (pairs : List (String × Nat)) (s1 s2 : Nat)
    (hp : parse script = some m)
    (hpair : containsPairs cid script = some pairs)
    (h1 : (nid, s1) ∈ pairs) (h2 : (nid, s2) ∈ pairs) (hne : s1 ≠ s2)
    (hc : alookup cid m.concepts = some c)
    (hlp : ∀ q ∈ m.learning_paths, q.1 ≠ cid)
    (hnode : (build m).hasNode nid = true) :
    ∃ ids, c.sequence = some ids ∧ 2 ≤ ids.count nid ∧
      ∃ pre post, ids = pre ++ nid :: post ∧ nid ∉ post ∧
        (∃ a, alookup (cid, nid) (build m).edges = some a ∧
          a.relation = "CONTAINS" ∧ a.seq = some (pre.length + 1)) ∧
        ((build m).edges.filter fun e => decide (e.1 = (cid, nid))).length = 1 := by
  have hpne : pairs ≠ [] := fun he => absurd (he ▸ h1) (List.not_mem_nil _)
  have hseq := parse_concept_sequence hp hc hpair hpne
  have hcount : 2 ≤ ((sortBySeq pairs).map Prod.fst).count nid := by
    rw [count_map_fst]
    rw [(sortBySeq_perm pairs).countP_eq]
    refine two_le_countP h1 h2 ?_ (by simp) (by simp)
    intro he
    exact hne (congrArg Prod.snd he)
  have hmem : nid ∈ (sortBySeq pairs).map Prod.fst := by
    by_contra hnm
    rw [List.count_eq_zero_of_not_mem hnm] at hcount
    omega
  obtain ⟨pre, post, hsplit, hpost⟩ := exists_last_split hmem
  have hnd := parse_concepts_keys_nodup hp
  have hseq2 : c.sequence = some (pre ++ nid :: post) := by
    rw [hseq, hsplit]
  obtain ⟨a, ha, har, has⟩ := build_contains_edge hnd hlp hc hseq2 hpost hnode
  have hfil := filter_key_nodup (build_edges_keys_nodup m) (alookup_mem ha)
  exact ⟨(sortBySeq pairs).map Prod.fst, hseq, hcount, pre, post, hsplit, hpost,
    ⟨a, ha, har, has⟩, hfil⟩

/-- C9 witness: the duplicate-pair behavior on the concrete script
`sC9`. -/
theorem c9_witness :
    ∃ ids, cC9.sequence = some ids ∧ 2 ≤ ids.count "N1" ∧
      ∃ pre post, ids = pre ++ "N1" :: post ∧ "N1" ∉ post ∧
        (∃ a, alookup ("CONCEPT-1", "N1") (build mC9).edges = some a ∧
          a.relation = "CONTAINS" ∧ a.seq = some (pre.length + 1)) ∧
        ((build mC9).edges.filter fun e => decide (e.1 = ("CONCEPT-1", "N1"))).length = 1 :=
  c9_duplicate_contains sC9 mC9 "CONCEPT-1" "N1" cC9 [("N1", 0), ("N2", 1), ("N1", 2)] 0 2
    (by decide) (by decide) (by decide) (by decide) (by decide) (by decide) (by decide)
    (by decide)

/-! ### Claim C10 -/

/-- C10: the position on a CONTAINS (or INCLUDES) edge is the member's
1-based rank in the FULL derived sequence, including members that are not
nodes of the graph; a member absent from the node set gets no edge at
all, so the surviving positions of a concept (or path) with a missing
member are not contiguous — in `mC10` the edges carry positions 1 and 3
with a gap at 2. -/
theorem c10_positions_with_gaps :
    (∀ (m : ParsedModel) (cid nid : String),
        (build m).hasNode nid = false →
        alookup (cid, nid) (build m).edges = none)
    ∧ (∀ (m : ParsedModel) (cid nid : String) (c : Concept) (pre post : List String),
        (m.concepts.map Prod.fst).Nodup → (∀ q ∈ m.learning_paths, q.1 ≠ cid) →
        alookup cid m.concepts = some c → c.sequence = some (pre ++ nid :: post) →
        nid ∉ post → (build m).hasNode nid = true →
        ∃ a, alookup (cid, nid) (build m).edges = some a ∧
          a.relation = "CONTAINS" ∧ a.seq = some (pre.length + 1))
    ∧ (∀ (m : ParsedModel) (pid cid : String) (lp : LearningPath) (pre post : List String),
        (m.learning_paths.map Prod.fst).Nodup →
        alookup pid m.learning_paths = some lp →
        lp.conceptSequence = some (pre ++ cid :: post) → cid ∉ post →
        (build m).hasNode cid = true →
        ∃ a, alookup (pid, cid) (build m).edges = some a ∧
          a.relation = "INCLUDES" ∧ a.seq = some (pre.length + 1))
    ∧ ((build mC10).edges.map (fun e => (e.1.1, e.1.2, e.2.relation, e.2.seq)) =
        [("CONCEPT-1", "N1", "CONTAINS", some 1),
         ("CONCEPT-1", "N3", "CONTAINS", some 3)]) := by
  refine ⟨?_, ?_, ?_, by decide⟩
  · intro m cid nid h
    exact @build_edge_none_of_missing m (cid, nid) h
  · intro m cid nid c pre post hnd hlp hc hs hpost hn
    exact build_contains_edge hnd hlp hc hs hpost hn
  · intro m pid cid lp pre post hnd hl hs hpost hn
    exact build_includes_edge hnd hl hs hpost hn

/-- C10 witness: surviving position 3 for N3 behind the missing member
N2. -/
theorem c10_witness :
    ∃ a, alookup ("CONCEPT-1", "N3") (build mC10).edges = some a ∧
      a.relation = "CONTAINS" ∧ a.seq = some (["N1", "N2"].length + 1) :=
  c10_positions_with_gaps.2.1 mC10 "CONCEPT-1" "N3" cC10 ["N1", "N2"] []
    (by decide) (by decide) (by decide) (by decide) (by decide) (by decide)

end KG
